import Mathlib

/-
Verification of the jamesxoliver.github.io document pipeline
(scripts/convert.py and scripts/inject_seo.py) against its specification.

Python string and regex operations are shallowly embedded as executable
functions on `List Char` / `String`.  Python `dict` (insertion-ordered) is
embedded as an association list with append-on-new-key update, `list.sort`
(stable) as a stable insertion sort, and the external collaborators
(pandoc, git) as oracle function parameters.
-/

/-- Characters allowed in a finished URL slug: lowercase ASCII letters and digits. -/
def isLowerAlnum (c : Char) : Bool :=
  (('a' ≤ c) && (c ≤ 'z')) || (('0' ≤ c) && (c ≤ '9'))

/-- ASCII whitespace as recognized by Python str.strip / str.split / regex \s. -/
def isPyWs (c : Char) : Bool :=
  c = ' ' || c = '\t' || c = '\n' || c = '\r' || c = Char.ofNat 11 || c = Char.ofNat 12

/-- Python str.strip() on a character list. -/
def stripChars (l : List Char) : List Char :=
  ((l.dropWhile isPyWs).reverse.dropWhile isPyWs).reverse

/-- Python str.strip(). -/
def pyStrip (s : String) : String := ⟨stripChars s.data⟩

/-- Python str.strip("-") on a character list. -/
def stripDashes (l : List Char) : List Char :=
  ((l.dropWhile (· = '-')).reverse.dropWhile (· = '-')).reverse

/-- Scanner for Python str.replace: `k` counts characters of an already
matched pattern occurrence still to be swallowed. -/
def replaceAux (p r : List Char) : List Char → Nat → List Char
  | [], _ => []
  | _ :: cs, k + 1 => replaceAux p r cs k
  | c :: cs, 0 =>
    if p.isPrefixOf (c :: cs) ∧ p ≠ [] then r ++ replaceAux p r cs (p.length - 1)
    else c :: replaceAux p r cs 0

/-- Python str.replace(p, r): replace all occurrences left to right.
All call sites in the scripts use a nonempty pattern p. -/
def replaceList (p r l : List Char) : List Char := replaceAux p r l 0

/-- Python str.replace on `String`. -/
def pyReplace (s pat rep : String) : String := ⟨replaceList pat.data rep.data s.data⟩

/-- Python str.lower(), for the ASCII range. -/
def pyLower (s : String) : String := ⟨s.data.map Char.toLower⟩

/-- Substring scan: does `n` occur as a contiguous run inside `h`. -/
def listInfixOf (n : List Char) : List Char → Bool
  | [] => n.isEmpty
  | c :: cs => n.isPrefixOf (c :: cs) || listInfixOf n cs

/-- Python substring test `needle in hay`. -/
def pyContains (hay needle : String) : Bool := listInfixOf needle.data hay.data

/-- Python lexicographic string comparison `a <= b` (by code point). -/
def charsLe : List Char → List Char → Bool
  | [], _ => true
  | _ :: _, [] => false
  | a :: as, b :: bs => if a = b then charsLe as bs else decide (a < b)

/-- re.sub("[^a-z0-9]+", "-", s) as a state machine: the flag records whether
the scanner is inside a run of non-[a-z0-9] characters already replaced. -/
def collapseAux : List Char → Bool → List Char
  | [], _ => []
  | c :: cs, true => if isLowerAlnum c then c :: collapseAux cs false else collapseAux cs true
  | c :: cs, false =>
    if isLowerAlnum c then c :: collapseAux cs false else '-' :: collapseAux cs true

/-- re.sub("[^a-z0-9]+", "-", s): runs of non-[a-z0-9] become a single "-". -/
def collapseNonAlnum (l : List Char) : List Char := collapseAux l false

/-- scripts/convert.py, slug(name): strip ".tex", lowercase, collapse runs of
non-[a-z0-9] characters to a single "-", strip leading/trailing "-". -/
def slug (name : String) : String :=
  ⟨stripDashes (collapseNonAlnum ((replaceList ".tex".data [] name.data).map Char.toLower))⟩

/-- Generic left-to-right re.sub scanner. `step l` returns the replacement
text and the number of input characters consumed (always ≥ 1) when a match
starts at `l`, `none` when no match starts there.  The Nat state counts
characters of the current match still to be swallowed. -/
def scanRewrite (step : List Char → Option (List Char × Nat)) : List Char → Nat → List Char
  | [], _ => []
  | _ :: cs, k + 1 => scanRewrite step cs k
  | c :: cs, 0 =>
    match step (c :: cs) with
    | some (out, consumed) => out ++ scanRewrite step cs (consumed - 1)
    | none => c :: scanRewrite step cs 0

/-- Scan for a non-greedy tail `(.*?)close`: number of non-newline characters
consumed before the first position where `close` starts. -/
def findCloseTail (close : List Char) : List Char → Option Nat
  | [] => if close.isEmpty then some 0 else none
  | c :: cs =>
    if close.isPrefixOf (c :: cs) then some 0
    else if c = '\n' then none
    else (findCloseTail close cs).map (· + 1)

/-- Match step for re.sub(r"\$\$[^$]*\$\$", repl, ...): display math. -/
def displayMathStep (repl : List Char) (l : List Char) : Option (List Char × Nat) :=
  if "$$".data.isPrefixOf l then
    let after := l.drop 2
    let run := after.takeWhile (· ≠ '$')
    if "$$".data.isPrefixOf (after.dropWhile (· ≠ '$')) then some (repl, run.length + 4)
    else none
  else none

/-- Match step for re.sub(r"\$[^$]+\$", repl, ...): inline math. -/
def inlineMathStep (repl : List Char) (l : List Char) : Option (List Char × Nat) :=
  match l with
  | '$' :: rest =>
    let run := rest.takeWhile (· ≠ '$')
    if run.isEmpty then none
    else
      match rest.dropWhile (· ≠ '$') with
      | '$' :: _ => some (repl, run.length + 2)
      | _ => none
  | _ => none

/-- Match step for re.sub(r"\*\*(.+?)\*\*", r"\1", ...): bold markers. -/
def boldStep (l : List Char) : Option (List Char × Nat) :=
  match l with
  | '*' :: '*' :: c :: rest =>
    if c = '\n' then none
    else
      match findCloseTail "**".data rest with
      | some k => some (c :: rest.take k, k + 5)
      | none => none
  | _ => none

/-- Match step for re.sub(r"\*(.+?)\*", r"\1", ...): emphasis markers. -/
def italicStep (l : List Char) : Option (List Char × Nat) :=
  match l with
  | '*' :: c :: rest =>
    if c = '\n' then none
    else
      match findCloseTail "*".data rest with
      | some k => some (c :: rest.take k, k + 3)
      | none => none
  | _ => none

/-- Match step for re.sub(r"\[([^\]]+)\]\([^)]+\)", r"\1", ...): links replaced
by their visible text. -/
def linkStep (l : List Char) : Option (List Char × Nat) :=
  match l with
  | '[' :: rest =>
    let run1 := rest.takeWhile (· ≠ ']')
    if run1.isEmpty then none
    else
      match rest.dropWhile (· ≠ ']') with
      | ']' :: '(' :: rest3 =>
        let run2 := rest3.takeWhile (· ≠ ')')
        if run2.isEmpty then none
        else
          match rest3.dropWhile (· ≠ ')') with
          | ')' :: _ => some (run1, run1.length + run2.length + 4)
          | _ => none
      | _ => none
  | _ => none

/-- Search inside an image pattern, after "![": total characters consumed by
"(.*?)\]\((.*?)\)" including the final ")", with regex backtracking past "]"
occurrences whose parenthesized part does not close. -/
def findBracketMatch : List Char → Option Nat
  | [] => none
  | c :: cs =>
    if c = '\n' then none
    else if c = ']' then
      match cs with
      | '(' :: rest =>
        match findCloseTail ")".data rest with
        | some k => some (k + 3)
        | none => (findBracketMatch cs).map (· + 1)
      | _ => (findBracketMatch cs).map (· + 1)
    else (findBracketMatch cs).map (· + 1)

/-- Match step for re.sub(r"!\[.*?\]\(.*?\)", "", ...): images removed. -/
def imageStep (l : List Char) : Option (List Char × Nat) :=
  match l with
  | '!' :: '[' :: rest =>
    match findBracketMatch rest with
    | some k => some ([], k + 2)
    | none => none
  | _ => none

/-- Match step for re.sub(r"-{3,}", "", ...): horizontal rules removed. -/
def hrStep (l : List Char) : Option (List Char × Nat) :=
  match l with
  | '-' :: '-' :: '-' :: _ => some ([], (l.takeWhile (· = '-')).length)
  | _ => none

/-- Match step for re.sub(marker ++ r"(.+?)\}", r"\1", ...), used for the
LaTeX \textbf and \emph commands inside extracted titles. -/
def texCmdStep (marker : List Char) (l : List Char) : Option (List Char × Nat) :=
  if marker.isPrefixOf l then
    match l.drop marker.length with
    | c :: rest =>
      if c = '\n' then none
      else
        match findCloseTail "\x7d".data rest with
        | some k => some (c :: rest.take k, marker.length + k + 2)
        | none => none
    | [] => none
  else none

/-- re.search(open ++ "(.+?)" ++ close, s).group(1): first position where the
whole pattern matches, with "." not matching newlines. -/
def searchBetween (opn close : List Char) : List Char → Option (List Char)
  | [] => none
  | c :: cs =>
    if opn.isPrefixOf (c :: cs) then
      match (c :: cs).drop opn.length with
      | d :: rest =>
        if d = '\n' then searchBetween opn close cs
        else
          match findCloseTail close rest with
          | some k => some (d :: rest.take k)
          | none => searchBetween opn close cs
      | [] => none
    else searchBetween opn close cs

/-- Leading prefix of exactly the shape \d{4}-\d{2}-\d{2}. -/
def parseDateShape (l : List Char) : Option (List Char) :=
  match l with
  | a :: b :: c :: d :: '-' :: e :: f :: '-' :: g :: h :: _ =>
    if a.isDigit && b.isDigit && c.isDigit && d.isDigit && e.isDigit && f.isDigit &&
        g.isDigit && h.isDigit then
      some [a, b, c, d, '-', e, f, '-', g, h]
    else none
  | _ => none

/-- re.search(marker ++ r"\s*(\d{4}-\d{2}-\d{2})", s).group(1): skip the
maximal whitespace run after the marker, then require a date-shaped token. -/
def searchDated (marker : List Char) : List Char → Option (List Char)
  | [] => none
  | c :: cs =>
    if marker.isPrefixOf (c :: cs) then
      match parseDateShape (((c :: cs).drop marker.length).dropWhile isPyWs) with
      | some d => some d
      | none => searchDated marker cs
    else searchDated marker cs

/-- scripts/convert.py, extract_title: the text of
\newcommand\x7b\DocumentTitle\x7d\x7b...\x7d, with "--" mapped to an en dash
and \textbf / \emph wrappers removed. -/
def extract_title (tex : String) : Option String :=
  match searchBetween "\\newcommand\x7b\\DocumentTitle\x7d\x7b".data "\x7d".data tex.data with
  | none => none
  | some t =>
    let t := replaceList "--".data "–".data t
    let t := scanRewrite (texCmdStep "\\textbf\x7b".data) t 0
    let t := scanRewrite (texCmdStep "\\emph\x7b".data) t 0
    some ⟨t⟩

/-- scripts/convert.py, extract_subtitle: stripped subtitle text, dropped when
empty or equal to the placeholder "Subtitle". -/
def extract_subtitle (tex : String) : Option String :=
  match searchBetween "\\newcommand\x7b\\DocumentSubtitle\x7d\x7b".data "\x7d".data tex.data with
  | none => none
  | some s =>
    let sub := stripChars s
    if sub ≠ [] ∧ sub ≠ "Subtitle".data then some ⟨sub⟩ else none

/-- scripts/convert.py, extract_related_essays: comma-separated slugs inside
\RelatedEssays\x7b...\x7d, stripped, empty entries dropped. -/
def extract_related_essays (tex : String) : List String :=
  match searchBetween "\\RelatedEssays\x7b".data "\x7d".data tex.data with
  | none => []
  | some s => (((s.splitOn ',').map stripChars).filter (· ≠ [])).map (fun l => (⟨l⟩ : String))

/-- The skip conditions of extract_first_paragraph, applied to a stripped line:
headings, blanks, images, list items, the author line, pure-italic lines and
raw-markup or delimiter lines are not description candidates. -/
def descLineSkip (line : List Char) : Bool :=
  line.isEmpty ||
  "#".data.isPrefixOf line || "!".data.isPrefixOf line || "-".data.isPrefixOf line ||
  ("**".data.isPrefixOf line &&
    (listInfixOf "james oliver".data (line.map Char.toLower) ||
     listInfixOf "author".data (line.map Char.toLower))) ||
  ("*".data.isPrefixOf line && "*".data.isSuffixOf line) ||
  "<".data.isPrefixOf line || ":::".data.isPrefixOf line || "---".data.isPrefixOf line

/-- One description candidate line cleaned to plain text: inline math removed,
bold and italic markers removed, links replaced by their text, then stripped. -/
def cleanDescLine (line : List Char) : List Char :=
  stripChars
    (scanRewrite linkStep
      (scanRewrite italicStep
        (scanRewrite boldStep
          (scanRewrite (inlineMathStep []) line 0) 0) 0) 0)

/-- The first qualifying description line of extract_first_paragraph, before
truncation: scan lines in order, skip non-candidates, accept the first cleaned
line longer than 30 characters. -/
def firstParagraphDesc : List (List Char) → Option (List Char)
  | [] => none
  | l0 :: rest =>
    let line := stripChars l0
    if descLineSkip line then firstParagraphDesc rest
    else
      let desc := cleanDescLine line
      if 30 < desc.length then some desc else firstParagraphDesc rest

/-- Python desc[:152].rsplit(" ", 1)[0]: the part before the last space, the
whole string when it contains no space. -/
def beforeLastSpace (l : List Char) : List Char :=
  if ' ' ∈ l then ((l.reverse.dropWhile (· ≠ ' ')).drop 1).reverse else l

/-- The truncation step of extract_first_paragraph:
desc[:152].rsplit(" ", 1)[0] + "..." when len(desc) > 155. -/
def truncate155 (desc : List Char) : List Char :=
  if 155 < desc.length then beforeLastSpace (desc.take 152) ++ "...".data else desc

/-- scripts/convert.py, extract_first_paragraph. -/
def extract_first_paragraph (md : String) : String :=
  match firstParagraphDesc (md.data.splitOn '\n') with
  | none => ""
  | some d => ⟨truncate155 d⟩

/-- The markup characters removed by re.sub(r"[#*_`~>|]", "", text). -/
def mdPunct : List Char := ['#', '*', '_', Char.ofNat 96, '~', '>', '|']

/-- The plain text used for the word count of estimate_reading_time. -/
def readingTimeText (md : String) : List Char :=
  let t := scanRewrite (displayMathStep " equation ".data) md.data 0
  let t := scanRewrite (inlineMathStep " equation ".data) t 0
  let t := scanRewrite imageStep t 0
  let t := scanRewrite linkStep t 0
  let t := t.filter (fun c => !(mdPunct.contains c))
  scanRewrite hrStep t 0

/-- len(text.split()): number of maximal non-whitespace runs. -/
def countWordsAux : List Char → Bool → Nat
  | [], _ => 0
  | c :: cs, true => if isPyWs c then countWordsAux cs false else countWordsAux cs true
  | c :: cs, false => if isPyWs c then countWordsAux cs false else 1 + countWordsAux cs true

/-- len(text.split()). -/
def countWords (l : List Char) : Nat := countWordsAux l false

/-- Python round(w / 200): round half to even, exact over the rationals since
every half-integer multiple of 1/200 is a representable float. -/
def pyRound200 (w : Nat) : Nat :=
  if w % 200 < 100 then w / 200
  else if w % 200 = 100 then (if (w / 200) % 2 = 0 then w / 200 else w / 200 + 1)
  else w / 200 + 1

/-- scripts/convert.py, estimate_reading_time: max(1, round(words / 200)). -/
def estimate_reading_time (md : String) : Nat :=
  max 1 (pyRound200 (countWords (readingTimeText md)))

/-- Python str.title() for ASCII: uppercase a letter after a non-letter,
lowercase a letter after a letter. -/
def pyTitleAux : List Char → Bool → List Char
  | [], _ => []
  | c :: cs, prevCased =>
    if c.isAlpha then (if prevCased then c.toLower else c.toUpper) :: pyTitleAux cs true
    else c :: pyTitleAux cs false

/-- Python str.title(). -/
def pyTitle (l : List Char) : List Char := pyTitleAux l false

/-- pathlib.Path(path).stem: the final path component without its last
extension; a leading or trailing dot does not start an extension. -/
def pathStem (path : String) : List Char :=
  let name := (path.data.splitOn '/').getLastD []
  match name.reverse with
  | [] => name
  | c :: _ =>
    if c = '.' then name
    else
      match name.reverse.dropWhile (· ≠ '.') with
      | [] => name
      | _ :: rest2 => if rest2.isEmpty then name else rest2.reverse

/-- scripts/convert.py, main: Path(path).stem.replace("-", " ").title(), the
human-readable form of a slug used for title disambiguation. -/
def readableStem (path : String) : List Char :=
  pyTitle ((pathStem path).map (fun c => if c = '-' then ' ' else c))

/-- essay_tree: top category → (optional subcategory → ordered (title, path)
items), with Python dict insertion order embedded as association lists. -/
abbrev EssayTree := List (String × List (Option String × List (String × String)))

/-- All (title, path) items of the tree in iteration order. -/
def flattenTree (tree : EssayTree) : List (String × String) :=
  tree.flatMap (fun tc => tc.2.flatMap (fun sc => sc.2))

/-- all_titles collected across the entire tree. -/
def allTitles (tree : EssayTree) : List String := (flattenTree tree).map Prod.fst

/-- One item of the disambiguation rewrite: a title occurring more than once
in the whole tree gets " (" ++ readable slug ++ ")" appended. -/
def renameItem (all : List String) (it : String × String) : String × String :=
  if 1 < all.count it.1 then (it.1 ++ " (" ++ (⟨readableStem it.2⟩ : String) ++ ")", it.2)
  else it

/-- scripts/convert.py, main lines 439-466: duplicate-title disambiguation
over the whole essay tree. -/
def disambiguateTree (tree : EssayTree) : EssayTree :=
  let all := allTitles tree
  if all.any (fun t => 1 < all.count t) then
    tree.map (fun tc => (tc.1, tc.2.map (fun sc => (sc.1, sc.2.map (renameItem all)))))
  else tree

/-- One source document: path components relative to the corpus root (the last
component is the file name) and raw text. -/
structure SourceDoc where
  parts : List String
  content : String
deriving DecidableEq

/-- Pass-1 metadata record for one essay (the info dict of convert.py). -/
structure Info where
  title : String
  subtitle : Option String
  published : Option String
  updated : Option String
  top_category : String
  sub_category : Option String
  file_slug : String
  nav_path : String
  related_slugs : List String
deriving DecidableEq

/-- SKIP_DIRS of convert.py. -/
def SKIP_DIRS : List String := ["0_Format"]

/-- The RENAME map for top-level directories. -/
def renameTop (s : String) : String := if s = "1_Foundations" then "Foundations" else s

/-- A document excluded before title extraction: skipped directory or a
"template" file name. -/
def docDirSkipped (doc : SourceDoc) : Bool :=
  doc.parts.headD "" ∈ SKIP_DIRS ||
  pyContains (pyLower (doc.parts.getLastD "")) "template"

/-- A document reaching title extraction whose title is missing, empty, or the
placeholder "Title"; convert.py silently skips it in pass 1. -/
def docTitleInvalid (doc : SourceDoc) : Bool :=
  !docDirSkipped doc &&
    (match extract_title doc.content with
     | none => true
     | some t => t = "" || t = "Title")

/-- Pass 1 for one document: metadata collection, `none` when the document is
skipped.  `dates` is the git-history oracle (get_git_dates). -/
def pass1Doc (dates : SourceDoc → Option String × Option String) (doc : SourceDoc) :
    Option Info :=
  if docDirSkipped doc then none
  else
    match extract_title doc.content with
    | none => none
    | some title =>
      if title = "" ∨ title = "Title" then none
      else
        let name := doc.parts.getLastD ""
        let dts := dates doc
        let top_category := renameTop (doc.parts.headD "")
        let sub_category : Option String :=
          if 2 < doc.parts.length then some (doc.parts.getD 1 "") else none
        let file_slug := slug name
        let top_slug := slug top_category
        let nav_path :=
          match sub_category with
          | some sc => "essays/" ++ top_slug ++ "/" ++ slug sc ++ "/" ++ file_slug ++ ".md"
          | none => "essays/" ++ top_slug ++ "/" ++ file_slug ++ ".md"
        some { title := title, subtitle := extract_subtitle doc.content,
               published := dts.1, updated := dts.2,
               top_category := top_category, sub_category := sub_category,
               file_slug := file_slug, nav_path := nav_path,
               related_slugs := extract_related_essays doc.content }

/-- Pass 1 over the whole corpus, in corpus order. -/
def pass1 (dates : SourceDoc → Option String × Option String) (docs : List SourceDoc) :
    List Info :=
  docs.filterMap (pass1Doc dates)

/-- Append an item to the bucket of one subcategory key (Python dict update:
existing key keeps its position, new key appended). -/
def bucketAppend (subs : List (Option String × List (String × String)))
    (sub : Option String) (item : String × String) :
    List (Option String × List (String × String)) :=
  match subs with
  | [] => [(sub, [item])]
  | (k, items) :: rest =>
    if k = sub then (k, items ++ [item]) :: rest else (k, items) :: bucketAppend rest sub item

/-- Insert one converted essay into the tree. -/
def treeInsert (tree : EssayTree) (top : String) (sub : Option String)
    (item : String × String) : EssayTree :=
  match tree with
  | [] => [(top, [(sub, [item])])]
  | (k, subs) :: rest =>
    if k = top then (k, bucketAppend subs sub item) :: rest
    else (k, subs) :: treeInsert rest top sub item

/-- The output file path written for one converted essay. -/
def outPathOf (info : Info) : String :=
  match info.sub_category with
  | some sc =>
    "docs/essays/" ++ slug info.top_category ++ "/" ++ slug sc ++ "/" ++ info.file_slug ++ ".md"
  | none => "docs/essays/" ++ slug info.top_category ++ "/" ++ info.file_slug ++ ".md"

/-- State of pass 2: the essay tree, the Converted/Failed counters of the
printed summary, and the output files written. -/
structure Pass2Result where
  tree : EssayTree
  converted : Nat
  failed : Nat
  outPaths : List String
deriving DecidableEq

/-- Pass 2 for one essay: a pandoc failure only counts `failed`; a success
writes the output file and inserts the essay into the tree.  `conv` is the
pandoc oracle (tex_to_md). -/
def pass2Step (conv : Info → Option String) (acc : Pass2Result) (info : Info) :
    Pass2Result :=
  match conv info with
  | none => { acc with failed := acc.failed + 1 }
  | some _ =>
    { tree := treeInsert acc.tree info.top_category info.sub_category (info.title, info.nav_path),
      converted := acc.converted + 1,
      failed := acc.failed,
      outPaths := acc.outPaths ++ [outPathOf info] }

/-- Pass 2 over the pass-1 records, in order. -/
def pass2 (conv : Info → Option String) (infos : List Info) : Pass2Result :=
  infos.foldl (pass2Step conv) ⟨[], 0, 0, []⟩

/-- Python truthiness of e.get("published"). -/
def essayDated (e : Info) : Bool := e.published.getD "" ≠ ""

/-- Ordering used for the "recent" section: descending publish date; keeping
`a` before `b` is allowed when b's date is at most a's. -/
def infoDateGe (a b : Info) : Prop :=
  charsLe (b.published.getD "").data (a.published.getD "").data = true

instance : DecidableRel infoDateGe := fun _ _ => inferInstanceAs (Decidable (_ = true))

/-- dated = [e for e in essays if e.get("published")], sorted by date
descending (Python's sort is stable; embedded as a stable insertion sort),
then the first 5. -/
def recentOf (essays : List Info) : List Info :=
  ((essays.filter essayDated).insertionSort infoDateGe).take 5

/-- The homepage line rendered for one recent essay. -/
def recentLine (e : Info) : String :=
  "- [" ++ e.title ++ "](" ++ e.nav_path ++ ") <small>" ++ e.published.getD "" ++ "</small>"

/-- Python ascending string comparison as a relation. -/
def strLe (a b : String) : Prop := charsLe a.data b.data = true

instance : DecidableRel strLe := fun _ _ => inferInstanceAs (Decidable (_ = true))

/-- sorted(...) on strings. -/
def pySortStrings (l : List String) : List String := l.insertionSort strLe

/-- Python ascending comparison of (title, path) tuples. -/
def pairLe (a b : String × String) : Prop :=
  (if a.1 = b.1 then charsLe a.2.data b.2.data else charsLe a.1.data b.1.data) = true

instance : DecidableRel pairLe := fun _ _ => inferInstanceAs (Decidable (_ = true))

/-- sorted(...) on (title, path) tuples. -/
def pySortPairs (l : List (String × String)) : List (String × String) :=
  l.insertionSort pairLe

/-- One nav entry: a document link or a subcategory with its documents. -/
inductive NavEntry
  | doc : String → String → NavEntry
  | sub : String → List (String × String) → NavEntry
deriving DecidableEq

/-- scripts/convert.py, build_nav: per sorted top category, sorted direct
entries then sorted subcategories with sorted items. -/
def build_nav (tree : EssayTree) : List (String × List NavEntry) :=
  (pySortStrings (tree.map Prod.fst)).map (fun top =>
    let subs := (tree.lookup top).getD []
    (top,
      (match subs.lookup (none : Option String) with
       | some items => (pySortPairs items).map (fun it => NavEntry.doc it.1 it.2)
       | none => []) ++
      (pySortStrings (subs.filterMap Prod.fst)).map (fun sc =>
        NavEntry.sub sc (pySortPairs ((subs.lookup (some sc)).getD [])))))

/-- scripts/convert.py, generate_homepage: the lines of docs/index.md. -/
def generate_homepage (tree : EssayTree) (essays : List Info) : List String :=
  ["# James Oliver", "", "Finding simplicity in complexity.", "", "---", ""] ++
  (let recent := recentOf essays
   if recent.isEmpty then []
   else ["**Recent**", ""] ++ recent.map recentLine ++ ["", "---", ""]) ++
  (pySortStrings (tree.map Prod.fst)).flatMap (fun top =>
    let subs := (tree.lookup top).getD []
    ["??? \"" ++ top ++ "\"", ""] ++
    (match subs.lookup (none : Option String) with
     | some items =>
       (pySortPairs items).map (fun it => "    - [" ++ it.1 ++ "](" ++ it.2 ++ ")") ++ [""]
     | none => []) ++
    (pySortStrings (subs.filterMap Prod.fst)).flatMap (fun sc =>
      ["    ??? \"" ++ sc ++ "\"", ""] ++
      (pySortPairs ((subs.lookup (some sc)).getD [])).map
        (fun it => "        - [" ++ it.1 ++ "](" ++ it.2 ++ ")") ++ [""]) ++
    [""])

/-- Everything scripts/convert.py main produces. -/
structure RunResult where
  essays : List Info
  tree : EssayTree
  converted : Nat
  failed : Nat
  outPaths : List String
  nav : List (String × List NavEntry)
  homepage : List String

/-- scripts/convert.py, main: pass 1, pass 2, disambiguation, nav fragment and
homepage, with git and pandoc as oracles. -/
def convertMain (docs : List SourceDoc) (dates : SourceDoc → Option String × Option String)
    (conv : Info → Option String) : RunResult :=
  let essays := pass1 dates docs
  let p2 := pass2 conv essays
  let dtree := disambiguateTree p2.tree
  { essays := essays, tree := dtree, converted := p2.converted, failed := p2.failed,
    outPaths := p2.outPaths, nav := build_nav dtree,
    homepage := generate_homepage dtree essays }

/-- inject_seo.py, SITE_URL. -/
def SITE_URL : String := "https://jamesxoliver.github.io"

/-- inject_seo.py, SEARCH_CONSOLE_VERIFICATION. -/
def SEARCH_CONSOLE_VERIFICATION : String := "Cm624WsCoCiwmhsfLdbV-yrMIAtb4R9b6QUa_aG3K_Q"

/-- Python sep.join(parts). -/
def joinSep (sep : String) : List String → String
  | [] => ""
  | [x] => x
  | x :: y :: rest => x ++ sep ++ joinSep sep (y :: rest)

/-- Python s.split(sep)[0]: the part before the first occurrence of sep. -/
def splitFirstSep (sep : List Char) : List Char → List Char
  | [] => []
  | c :: cs => if sep.isPrefixOf (c :: cs) then [] else c :: splitFirstSep sep cs

/-- The metadata extract_meta pulls out of rendered HTML. -/
structure MetaInfo where
  title : String
  description : String
  date : String
  updated : String
deriving DecidableEq

/-- inject_seo.py, extract_meta: title (before " - ", stripped), description,
published date, updated date (defaulting to the published date). -/
def extract_meta (html : String) : MetaInfo :=
  let title :=
    match searchBetween "<title>".data "</title>".data html.data with
    | some t => pyStrip ⟨splitFirstSep " - ".data t⟩
    | none => ""
  let desc :=
    match searchBetween "<meta name=\"description\" content=\"".data "\"".data html.data with
    | some d => (⟨d⟩ : String)
    | none => ""
  let date :=
    match searchDated "Published:".data html.data with
    | some d => (⟨d⟩ : String)
    | none => ""
  let upd :=
    match searchDated "Updated:".data html.data with
    | some d => (⟨d⟩ : String)
    | none => date
  ⟨title, desc, date, upd⟩

/-- One rendered HTML page of the built site: directory components relative to
site/, file name, and content. -/
structure Page where
  dirs : List String
  name : String
  html : String
deriving DecidableEq

/-- The page path relative to site/. -/
def relString (p : Page) : String := joinSep "/" (p.dirs ++ [p.name])

/-- str(html_path): the path including the site/ prefix. -/
def fullPathString (p : Page) : String := "site/" ++ relString p

/-- The canonical URL of a page: an index page maps to its directory URL (the
root index to the bare site root), any other page to its full relative path. -/
def canonicalUrl (p : Page) : String :=
  if p.name = "index.html" ∧ p.dirs ≠ [] then
    SITE_URL ++ "/" ++ joinSep "/" p.dirs ++ "/"
  else if p.name = "index.html" then SITE_URL ++ "/"
  else SITE_URL ++ "/" ++ relString p

/-- json.dumps escaping for the strings that reach build_jsonld. -/
def jsonEscape (s : String) : String :=
  ⟨s.data.flatMap (fun c =>
    if c = '\\' then ['\\', '\\']
    else if c = '"' then ['\\', '"']
    else if c = '\n' then ['\\', 'n']
    else if c = '\t' then ['\\', 't']
    else if c = '\r' then ['\\', 'r']
    else [c])⟩

/-- inject_seo.py, build_jsonld: the JSON-LD Article block, with dict insertion
order and json.dumps default separators. -/
def build_jsonld (meta : MetaInfo) (url : String) : String :=
  "\x7b\"@context\": \"https://schema.org\", \"@type\": \"Article\", \"headline\": \"" ++
    jsonEscape meta.title ++
    "\", \"author\": \x7b\"@type\": \"Person\", \"name\": \"James Oliver\", \"url\": \"" ++
    SITE_URL ++ "\"\x7d, \"publisher\": \x7b\"@type\": \"Person\", \"name\": \"James Oliver\"\x7d, " ++
    "\"mainEntityOfPage\": \x7b\"@type\": \"WebPage\", \"@id\": \"" ++ jsonEscape url ++ "\"\x7d" ++
    (if meta.description ≠ "" then ", \"description\": \"" ++ jsonEscape meta.description ++ "\"" else "") ++
    (if meta.date ≠ "" then ", \"datePublished\": \"" ++ jsonEscape meta.date ++ "\"" else "") ++
    (if meta.updated ≠ "" then ", \"dateModified\": \"" ++ jsonEscape meta.updated ++ "\"" else "") ++
    "\x7d"

/-- The ordered head-injection list of inject_into_html, each tag conditional
on its marker not already being present in the page. -/
def injectionsOf (html canonical : String) (isEssay : Bool) : List String :=
  let meta := extract_meta html
  (if SEARCH_CONSOLE_VERIFICATION ≠ "" ∧ ¬ pyContains html "google-site-verification" then
    ["<meta name=\"google-site-verification\" content=\"" ++ SEARCH_CONSOLE_VERIFICATION ++ "\" />"]
   else []) ++
  (if ¬ pyContains html "<link rel=\"canonical\"" then
    ["<link rel=\"canonical\" href=\"" ++ canonical ++ "\" />"]
   else []) ++
  (if ¬ pyContains html "application/rss+xml" then
    ["<link rel=\"alternate\" type=\"application/rss+xml\" title=\"James Oliver\" href=\"" ++
       SITE_URL ++ "/feed.xml\" />"]
   else []) ++
  (if ¬ pyContains html "og:type" then
    ["<meta property=\"og:type\" content=\"article\" />"]
   else []) ++
  (if ¬ pyContains html "og:site_name" then
    ["<meta property=\"og:site_name\" content=\"James Oliver\" />"]
   else []) ++
  (if meta.date ≠ "" ∧ ¬ pyContains html "article:published_time" then
    ["<meta property=\"article:published_time\" content=\"" ++ meta.date ++ "\" />"]
   else []) ++
  (if meta.updated ≠ "" ∧ ¬ pyContains html "article:modified_time" then
    ["<meta property=\"article:modified_time\" content=\"" ++ meta.updated ++ "\" />"]
   else []) ++
  (if ¬ pyContains html "article:author" then
    ["<meta property=\"article:author\" content=\"James Oliver\" />"]
   else []) ++
  (if ¬ pyContains html "twitter:card" then
    ["<meta name=\"twitter:card\" content=\"summary\" />"]
   else []) ++
  (if isEssay then
    ["<script type=\"application/ld+json\">" ++ build_jsonld meta canonical ++ "</script>"]
   else [])

/-- inject_seo.py, inject_into_html as a pure function on the page content:
pages already containing structured data are skipped, otherwise the computed
block is inserted before each closing head marker. -/
def inject_into_html (p : Page) : String :=
  let html := p.html
  if pyContains html "application/ld+json" then html
  else
    let injections := injectionsOf html (canonicalUrl p) (pyContains (fullPathString p) "/essays/")
    if injections.isEmpty then html
    else
      let block := joinSep "\n    " injections
      ⟨replaceList "</head>".data ("    " ++ block ++ "\n  </head>").data html.data⟩

/-- One syndication feed entry. -/
structure FeedEntry where
  title : String
  description : String
  url : String
  date : String
  updated : String
deriving DecidableEq

/-- The URL branch of generate_rss_feed (no bare-root case: essay pages are
never the site root). -/
def feedUrl (p : Page) : String :=
  if p.name = "index.html" ∧ p.dirs ≠ [] then
    SITE_URL ++ "/" ++ joinSep "/" p.dirs ++ "/"
  else SITE_URL ++ "/" ++ relString p

/-- The essay entries collected for the feed: pages under /essays/ having both
a title and a date. -/
def feedEntriesRaw (pages : List Page) : List FeedEntry :=
  pages.filterMap (fun p =>
    if ¬ pyContains (fullPathString p) "/essays/" then none
    else
      let meta := extract_meta p.html
      if meta.title = "" ∨ meta.date = "" then none
      else some ⟨meta.title, meta.description, feedUrl p, meta.date, meta.updated⟩)

/-- Descending publish-date order on feed entries. -/
def entryDateGe (a b : FeedEntry) : Prop := charsLe b.date.data a.date.data = true

instance : DecidableRel entryDateGe := fun _ _ => inferInstanceAs (Decidable (_ = true))

/-- essays.sort(key=date, reverse=True); essays[:50]. -/
def feedItemsOf (pages : List Page) : List FeedEntry :=
  ((feedEntriesRaw pages).insertionSort entryDateGe).take 50

/-- Sequential XML escaping used for feed titles and descriptions. -/
def xmlEscape (s : String) : String :=
  pyReplace (pyReplace (pyReplace s "&" "&amp;") "<" "&lt;") ">" "&gt;"

/-- List of strftime %a weekday abbreviations, indexed from Monday. -/
def dayAbbrev : List String := ["Mon", "Tue", "Wed", "Thu", "Fri", "Sat", "Sun"]

/-- List of strftime %b month abbreviations. -/
def monthAbbrev : List String :=
  ["Jan", "Feb", "Mar", "Apr", "May", "Jun", "Jul", "Aug", "Sep", "Oct", "Nov", "Dec"]

/-- Digits to a number. -/
def parseDigits (l : List Char) : Nat := l.foldl (fun n c => n * 10 + (c.toNat - 48)) 0

/-- Day of week (0 = Monday) by Zeller's congruence. -/
def weekdayOf (y m d : Nat) : Nat :=
  let y' := if m < 3 then y - 1 else y
  let m' := if m < 3 then m + 12 else m
  let k := y' % 100
  let j := y' / 100
  let h := (d + (13 * (m' + 1)) / 5 + k + k / 4 + j / 4 + 5 * j) % 7
  (h + 5) % 7

/-- datetime.strptime(date, "%Y-%m-%d").strftime("%a, %d %b %Y 00:00:00 +0000"). -/
def formatRssDate (date : String) : String :=
  let y := parseDigits (date.data.take 4)
  let m := parseDigits ((date.data.drop 5).take 2)
  let d := parseDigits ((date.data.drop 8).take 2)
  (dayAbbrev.getD (weekdayOf y m d) "Mon") ++ ", " ++ (⟨(date.data.drop 8).take 2⟩ : String) ++
    " " ++ (monthAbbrev.getD (m - 1) "Jan") ++ " " ++ (⟨date.data.take 4⟩ : String) ++
    " 00:00:00 +0000"

/-- The item block emitted for one feed entry. -/
def feedItemString (e : FeedEntry) : String :=
  "    <item>\n      <title>" ++ xmlEscape e.title ++ "</title>\n      <link>" ++ e.url ++
    "</link>\n      <guid>" ++ e.url ++ "</guid>\n      <pubDate>" ++ formatRssDate e.date ++
    "</pubDate>\n      <description>" ++ xmlEscape e.description ++
    "</description>\n      <author>James Oliver</author>\n    </item>"

/-- The constant feed text before the lastBuildDate value. -/
def feedPre : String :=
  "<?xml version=\"1.0\" encoding=\"UTF-8\"?>\n<rss version=\"2.0\" xmlns:atom=\"http://www.w3.org/2005/Atom\">\n  <channel>\n    <title>James Oliver</title>\n    <link>" ++
    SITE_URL ++
    "</link>\n    <description>Essays on systems, science, and structure â€” finding simplicity in complexity.</description>\n    <language>en-us</language>\n    <lastBuildDate>"

/-- The feed text after the lastBuildDate value: items and footer. -/
def feedPost (pages : List Page) : String :=
  "</lastBuildDate>\n    <atom:link href=\"" ++ SITE_URL ++
    "/feed.xml\" rel=\"self\" type=\"application/rss+xml\" />\n" ++
    joinSep "\n" ((feedItemsOf pages).map feedItemString) ++
    "\n  </channel>\n</rss>"

/-- inject_seo.py, generate_rss_feed: the bytes of feed.xml, with the
datetime.now() timestamp passed in as `now`. -/
def generate_rss_feed (pages : List Page) (now : String) : String :=
  feedPre ++ now ++ feedPost pages

/-- One sitemap url element: its loc text (None when the element has no loc
child) and its lastmod text. -/
structure UrlEntry where
  loc : Option String
  lastmod : Option String
deriving DecidableEq

/-- Python dict update: existing key keeps its position with the new value, a
new key is appended. -/
def dictSet (l : List (String × String)) (k v : String) : List (String × String) :=
  match l with
  | [] => [(k, v)]
  | (k', v') :: rest => if k' = k then (k, v) :: rest else (k', v') :: dictSet rest k v

/-- The url_dates map of inject_sitemap_lastmod: per page, the updated date or
else the published date, keyed by the page URL. -/
def urlDates (pages : List Page) : List (String × String) :=
  pages.foldl (fun acc p =>
    let meta := extract_meta p.html
    let dateStr := if meta.updated ≠ "" then meta.updated else meta.date
    if dateStr = "" then acc else dictSet acc (canonicalUrl p) dateStr) []

/-- The per-element rewrite of inject_sitemap_lastmod: a url element whose loc
is in the date map gets its lastmod set (created when absent), all others are
left as found. -/
def sitemapUpdateEntry (ud : List (String × String)) (e : UrlEntry) : UrlEntry :=
  match e.loc with
  | none => e
  | some loc =>
    match ud.lookup loc with
    | some d => { e with lastmod := some d }
    | none => e

/-- inject_seo.py, inject_sitemap_lastmod: missing sitemap or an empty date
map is a no-op, otherwise every url element is rewritten in place. -/
def inject_sitemap_lastmod (pages : List Page) (sitemap : Option (List UrlEntry)) :
    Option (List UrlEntry) :=
  match sitemap with
  | none => none
  | some entries =>
    let ud := urlDates pages
    if ud.isEmpty then some entries
    else some (entries.map (sitemapUpdateEntry ud))

/-- The artifacts of one run of inject_seo.py main. -/
structure EnrichResult where
  pages : List Page
  feed : String
  sitemap : Option (List UrlEntry)
deriving DecidableEq

/-- inject_seo.py, main: inject into every page in place, then generate the
feed and update the sitemap from the injected pages. -/
def enrichMain (pages : List Page) (sitemap : Option (List UrlEntry)) (now : String) :
    EnrichResult :=
  let pages2 := pages.map (fun p => { p with html := inject_into_html p })
  { pages := pages2,
    feed := generate_rss_feed pages2 now,
    sitemap := inject_sitemap_lastmod pages2 sitemap }

/-- The later of two ISO dates (lexicographically larger), used to state what
the specification asserts about sitemap lastmod values. -/
def laterDate (a b : String) : String := if charsLe a.data b.data then b else a

/-- The truncated description `out` ends with an ellipsis placed at a word
boundary of the untruncated description `d`: what precedes the ellipsis is a
prefix of `d` whose next character in `d`, if any, is a space. -/
def wordBoundaryTrunc (d out : List Char) : Prop :=
  (out.take (out.length - 3)) <+: d ∧
  out.drop (out.length - 3) = "...".data ∧
  ((d.drop (out.length - 3)).head? = none ∨ (d.drop (out.length - 3)).head? = some ' ')

instance (d out : List Char) : Decidable (wordBoundaryTrunc d out) := by
  unfold wordBoundaryTrunc
  infer_instance

/-- The characters a slug-derived file stem consists of: lowercase ASCII
alphanumerics and hyphens (the output alphabet of `slug`). -/
def slugChars : List Char := "abcdefghijklmnopqrstuvwxyz0123456789-".data

/-- Inverse of the readable-stem transformation on slug-like stems: spaces
back to hyphens, letters back to lowercase. -/
def unreadChar (c : Char) : Char := if c = ' ' then '-' else c.toLower

/-- A two-document corpus with a duplicated title, for exercising the pipeline
end to end. -/
def c10docs : List SourceDoc :=
  [⟨["X", "glucose-1.tex"], "\\newcommand\x7b\\DocumentTitle\x7d\x7bGlucose\x7d"⟩,
   ⟨["X", "glucose-2.tex"], "\\newcommand\x7b\\DocumentTitle\x7d\x7bGlucose\x7d"⟩]

/-- Git-dates oracle for the two-document corpus. -/
def c10dates : SourceDoc → Option String × Option String := fun d =>
  (some (if d.parts.getLastD "" = "glucose-1.tex" then "2024-01-01" else "2024-02-02"), none)

/-- A pandoc oracle that fails on the second document. -/
def c10fail : Info → Option String := fun i =>
  if i.file_slug = "glucose-2" then none else some "converted"

/-- A pandoc oracle that always succeeds. -/
def c10ok : Info → Option String := fun _ => some "converted"

/-- The pass-1 record of the second document of the corpus. -/
def c10info2 : Info :=
  ⟨"Glucose", none, some "2024-02-02", none, "X", none, "glucose-2",
   "essays/x/glucose-2.md", []⟩

-- ===== theorems =====

theorem head?_dropWhile_ne {α} {p : α → Bool} {l : List α} {x : α}
    (h : (l.dropWhile p).head? = some x) : p x = false := by
  have h2 := List.head?_dropWhile_not p l
  rw [h] at h2
  exact h2

theorem prefix_head?_eq {α} {l₁ l₂ : List α} (h : l₁ <+: l₂) (hne : l₁ ≠ []) :
    l₁.head? = l₂.head? := by
  obtain ⟨t, rfl⟩ := h
  cases l₁ with
  | nil => exact absurd rfl hne
  | cons a l => rfl

theorem charsLe_refl (a : List Char) : charsLe a a = true := by
  induction a with
  | nil => rfl
  | cons x xs ih => rw [charsLe, if_pos rfl]; exact ih

theorem charsLe_total (a b : List Char) : charsLe a b = true ∨ charsLe b a = true := by
  induction a generalizing b with
  | nil => exact Or.inl rfl
  | cons x xs ih =>
    cases b with
    | nil => exact Or.inr rfl
    | cons y ys =>
      by_cases h : x = y
      · subst h
        rw [charsLe, if_pos rfl, charsLe, if_pos rfl]
        exact ih ys
      · rw [charsLe, if_neg h, charsLe, if_neg (Ne.symm h)]
        rcases lt_or_gt_of_ne h with hlt | hgt
        · exact Or.inl (by simpa using hlt)
        · exact Or.inr (by simpa using hgt)

theorem charsLe_trans {a b c : List Char} (hab : charsLe a b = true)
    (hbc : charsLe b c = true) : charsLe a c = true := by
  induction a generalizing b c with
  | nil => rfl
  | cons x xs ih =>
    cases b with
    | nil => simp [charsLe] at hab
    | cons y ys =>
      cases c with
      | nil => simp [charsLe] at hbc
      | cons z zs =>
        by_cases hxy : x = y <;> by_cases hyz : y = z
        · subst hxy; subst hyz
          rw [charsLe, if_pos rfl] at hab hbc ⊢
          exact ih hab hbc
        · subst hxy
          rw [charsLe, if_neg hyz] at hbc
          rw [charsLe, if_neg hyz]
          exact hbc
        · subst hyz
          rw [charsLe, if_neg hxy] at hab
          rw [charsLe, if_neg hxy]
          exact hab
        · rw [charsLe, if_neg hxy] at hab
          rw [charsLe, if_neg hyz] at hbc
          by_cases hxz : x = z
          · subst hxz
            have h1 : x < y := by simpa using hab
            have h2 : y < x := by simpa using hbc
            exact absurd (h1.trans h2) (lt_irrefl x)
          · rw [charsLe, if_neg hxz]
            have h1 : x < y := by simpa using hab
            have h2 : y < z := by simpa using hbc
            simpa using h1.trans h2

instance : IsTotal Info infoDateGe :=
  ⟨fun a b => (charsLe_total (b.published.getD "").data (a.published.getD "").data).imp id id⟩

instance : IsTrans Info infoDateGe :=
  ⟨fun _ _ _ hab hbc => charsLe_trans hbc hab⟩

instance : IsTotal FeedEntry entryDateGe :=
  ⟨fun a b => (charsLe_total b.date.data a.date.data).imp id id⟩

instance : IsTrans FeedEntry entryDateGe :=
  ⟨fun _ _ _ hab hbc => charsLe_trans hbc hab⟩

theorem pyRound200_mono {w1 w2 : Nat} (h : w1 ≤ w2) : pyRound200 w1 ≤ pyRound200 w2 := by
  unfold pyRound200
  split_ifs <;> omega

/-- C9: the reading-time estimate is always at least 1 minute and is
monotonically non-decreasing as a function of the word count of the stripped
plain text (word count divided by 200, rounded, floored at 1). -/
theorem claim_C9 :
    (∀ md : String, 1 ≤ estimate_reading_time md) ∧
    (∀ md1 md2 : String,
      countWords (readingTimeText md1) ≤ countWords (readingTimeText md2) →
      estimate_reading_time md1 ≤ estimate_reading_time md2) := by
  constructor
  · intro md
    exact le_max_left 1 _
  · intro md1 md2 h
    exact max_le_max (le_refl 1) (pyRound200_mono h)

/-- C9 witness: the reading-time properties at two concrete inputs. -/
theorem claim_C9_witness :
    1 ≤ estimate_reading_time "ab" ∧
    countWords (readingTimeText "ab") ≤ countWords (readingTimeText "a b c") ∧
    estimate_reading_time "ab" ≤ estimate_reading_time "a b c" :=
  ⟨claim_C9.1 "ab", by decide, claim_C9.2 "ab" "a b c" (by decide)⟩

theorem beforeLastSpace_split {l : List Char} (h : ' ' ∈ l) :
    ∃ t, beforeLastSpace l ++ ' ' :: t = l ∧ ' ' ∉ t := by
  have hsplit := List.takeWhile_append_dropWhile (fun c => decide (c ≠ ' ')) l.reverse
  have hne : l.reverse.dropWhile (fun c => decide (c ≠ ' ')) ≠ [] := by
    intro h0
    rw [List.dropWhile_eq_nil_iff] at h0
    have := h0 ' ' (by simpa using h)
    simp at this
  obtain ⟨d, u, hdu⟩ := List.exists_cons_of_ne_nil hne
  have hd : d = ' ' := by
    have h2 := head?_dropWhile_ne (p := fun c => decide (c ≠ ' ')) (l := l.reverse)
      (x := d) (by rw [hdu]; rfl)
    simpa using h2
  subst hd
  have hb : beforeLastSpace l = u.reverse := by
    unfold beforeLastSpace
    rw [if_pos h, hdu]
    rfl
  have hl : l = u.reverse ++ ' ' :: (l.reverse.takeWhile (fun c => decide (c ≠ ' '))).reverse := by
    calc l = l.reverse.reverse := (List.reverse_reverse l).symm
      _ = (l.reverse.takeWhile (fun c => decide (c ≠ ' ')) ++ (' ' :: u)).reverse := by
          rw [← hdu, hsplit]
      _ = u.reverse ++ ' ' :: (l.reverse.takeWhile (fun c => decide (c ≠ ' '))).reverse := by
          rw [List.reverse_append, List.reverse_cons]
          simp [List.append_assoc]
  refine ⟨(l.reverse.takeWhile (fun c => decide (c ≠ ' '))).reverse, ?_, ?_⟩
  · rw [hb]
    exact hl.symm
  · intro hmem
    have h3 := List.mem_takeWhile_imp (l := l.reverse) (by simpa using hmem)
    simp at h3

theorem beforeLastSpace_pre (l : List Char) : beforeLastSpace l <+: l := by
  by_cases h : ' ' ∈ l
  · obtain ⟨t, ht, _⟩ := beforeLastSpace_split h
    exact ⟨' ' :: t, ht⟩
  · unfold beforeLastSpace
    rw [if_neg h]

theorem truncate155_length (d : List Char) : (truncate155 d).length ≤ 155 := by
  unfold truncate155
  split_ifs with h
  · have h1 : (beforeLastSpace (d.take 152)).length ≤ (d.take 152).length :=
      (beforeLastSpace_pre _).length_le
    have h2 : (d.take 152).length ≤ 152 := by
      simp [List.length_take]
    simp only [List.length_append, List.length_cons, List.length_nil]
    omega
  · omega

theorem truncate155_boundary {d : List Char} (hlen : 155 < d.length)
    (hsp : ' ' ∈ d.take 152) : wordBoundaryTrunc d (truncate155 d) := by
  obtain ⟨t, ht, _⟩ := beforeLastSpace_split hsp
  set stem := beforeLastSpace (d.take 152) with hstem
  have htr : truncate155 d = stem ++ "...".data := by
    unfold truncate155
    rw [if_pos hlen]
  have hlen3 : (truncate155 d).length - 3 = stem.length := by
    rw [htr]
    simp [List.length_append]
  have hdeq : d = stem ++ ' ' :: (t ++ d.drop 152) := by
    calc d = d.take 152 ++ d.drop 152 := (List.take_append_drop 152 d).symm
      _ = (stem ++ ' ' :: t) ++ d.drop 152 := by rw [ht]
      _ = stem ++ ' ' :: (t ++ d.drop 152) := by simp
  refine ⟨?_, ?_, ?_⟩
  · rw [hlen3, htr, List.take_left]
    exact ⟨' ' :: (t ++ d.drop 152), hdeq.symm⟩
  · rw [hlen3, htr, List.drop_left]
  · right
    have hdrop : d.drop stem.length = ' ' :: (t ++ d.drop 152) := by
      conv_lhs => rw [hdeq, List.drop_left]
    rw [hlen3, hdrop]
    rfl

/-- C3 (amended): the description never exceeds 155 characters; when the
extracted description is truncated the result ends with the "..." marker, and
the cut is at a word boundary provided the first 152 characters of the
over-long description contain a space (the code cuts mid-word otherwise). -/
theorem claim_C3 (md : String) :
    (extract_first_paragraph md).length ≤ 155 ∧
    (∀ d, firstParagraphDesc (md.data.splitOn '\n') = some d → 155 < d.length →
      (extract_first_paragraph md).data.drop ((extract_first_paragraph md).data.length - 3) =
        "...".data) ∧
    (∀ d, firstParagraphDesc (md.data.splitOn '\n') = some d → 155 < d.length →
      ' ' ∈ d.take 152 →
      wordBoundaryTrunc d (extract_first_paragraph md).data) := by
  refine ⟨?_, ?_, ?_⟩
  · unfold extract_first_paragraph
    cases hfd : firstParagraphDesc (md.data.splitOn '\n') with
    | none => simp [String.length]
    | some d =>
      show (String.mk (truncate155 d)).length ≤ 155
      simpa [String.length] using truncate155_length d
  · intro d hfd hlen
    unfold extract_first_paragraph
    rw [hfd]
    show (truncate155 d).drop ((truncate155 d).length - 3) = "...".data
    unfold truncate155
    rw [if_pos hlen]
    have : (beforeLastSpace (d.take 152) ++ "...".data).length =
        (beforeLastSpace (d.take 152)).length + 3 := by
      simp [List.length_append]
    rw [this]
    have h3 : (beforeLastSpace (d.take 152)).length + 3 - 3 =
        (beforeLastSpace (d.take 152)).length := by omega
    rw [h3, List.drop_left]
  · intro d hfd hlen hsp
    unfold extract_first_paragraph
    rw [hfd]
    exact truncate155_boundary hlen hsp

set_option maxRecDepth 20000 in
/-- C3 witness: a truncated description whose first 152 characters contain a
space is cut at a word boundary. -/
theorem claim_C3_witness :
    firstParagraphDesc ((String.mk ('w' :: 'q' :: ' ' :: List.replicate 170 'b')).data.splitOn '\n') =
      some ('w' :: 'q' :: ' ' :: List.replicate 170 'b') ∧
    (extract_first_paragraph (String.mk ('w' :: 'q' :: ' ' :: List.replicate 170 'b'))).length ≤ 155 ∧
    wordBoundaryTrunc ('w' :: 'q' :: ' ' :: List.replicate 170 'b')
      (extract_first_paragraph (String.mk ('w' :: 'q' :: ' ' :: List.replicate 170 'b'))).data :=
  ⟨by decide,
   (claim_C3 (String.mk ('w' :: 'q' :: ' ' :: List.replicate 170 'b'))).1,
   (claim_C3 (String.mk ('w' :: 'q' :: ' ' :: List.replicate 170 'b'))).2.2
     ('w' :: 'q' :: ' ' :: List.replicate 170 'b') (by decide) (by decide) (by decide)⟩

set_option maxRecDepth 20000 in
/-- C3 counterexample: on a 160-character space-free paragraph the code
truncates to the first 152 characters plus "...", cutting mid-word, so the
truncation is not at a word boundary as the claim states. -/
theorem claim_C3_counterexample :
    firstParagraphDesc ((String.mk (List.replicate 160 'a')).data.splitOn '\n') =
      some (List.replicate 160 'a') ∧
    155 < (List.replicate 160 'a' : List Char).length ∧
    (extract_first_paragraph (String.mk (List.replicate 160 'a'))).data =
      List.replicate 152 'a' ++ "...".data ∧
    ¬ wordBoundaryTrunc (List.replicate 160 'a')
      (extract_first_paragraph (String.mk (List.replicate 160 'a'))).data := by
  refine ⟨by decide, by decide, by decide, by decide⟩

/-- C7: the syndication feed entries are sorted by publish date descending and
the feed never contains more than 50 entries. -/
theorem claim_C7 (pages : List Page) :
    (feedItemsOf pages).length ≤ 50 ∧
    (feedItemsOf pages).Pairwise entryDateGe := by
  constructor
  · unfold feedItemsOf
    simp [List.length_take]
  · unfold feedItemsOf
    exact ((List.sorted_insertionSort entryDateGe _).sublist (List.take_sublist _ _))

theorem listInfixOf_iff {n l : List Char} : listInfixOf n l = true ↔ n <:+: l := by
  induction l with
  | nil =>
    simp only [listInfixOf, List.isEmpty_iff, List.infix_nil]
  | cons c cs ih =>
    simp only [listInfixOf, Bool.or_eq_true, List.isPrefixOf_iff_prefix, ih,
      List.infix_cons_iff]

theorem mem_collapseAux {c : Char} :
    ∀ (l : List Char) (b : Bool), c ∈ collapseAux l b → isLowerAlnum c = true ∨ c = '-' := by
  intro l
  induction l with
  | nil => intro b h; cases b <;> simp [collapseAux] at h
  | cons d cs ih =>
    intro b h
    cases b with
    | true =>
      by_cases hg : isLowerAlnum d = true
      · rw [collapseAux, if_pos hg] at h
        rcases List.mem_cons.mp h with rfl | h
        · exact Or.inl hg
        · exact ih false h
      · rw [collapseAux, if_neg hg] at h
        exact ih true h
    | false =>
      by_cases hg : isLowerAlnum d = true
      · rw [collapseAux, if_pos hg] at h
        rcases List.mem_cons.mp h with rfl | h
        · exact Or.inl hg
        · exact ih false h
      · rw [collapseAux, if_neg hg] at h
        rcases List.mem_cons.mp h with rfl | h
        · exact Or.inr rfl
        · exact ih true h

theorem head_collapseAux_true {c : Char} :
    ∀ (l : List Char), (collapseAux l true).head? = some c → isLowerAlnum c = true := by
  intro l
  induction l with
  | nil => intro h; simp [collapseAux] at h
  | cons d cs ih =>
    intro h
    by_cases hg : isLowerAlnum d = true
    · rw [collapseAux, if_pos hg, List.head?_cons, Option.some.injEq] at h
      exact h ▸ hg
    · rw [collapseAux, if_neg hg] at h
      exact ih h

theorem chain_collapseAux :
    ∀ (l : List Char) (b : Bool),
      List.Chain' (fun a c : Char => ¬(a = '-' ∧ c = '-')) (collapseAux l b) := by
  intro l
  induction l with
  | nil => intro b; cases b <;> simp [collapseAux]
  | cons d cs ih =>
    intro b
    have hgood : ∀ (hg : isLowerAlnum d = true),
        List.Chain' (fun a c : Char => ¬(a = '-' ∧ c = '-')) (d :: collapseAux cs false) := by
      intro hg
      refine List.chain'_cons'.mpr ⟨?_, ih false⟩
      rintro y _ ⟨h1, _⟩
      exact absurd (h1 ▸ hg) (by decide)
    cases b with
    | true =>
      by_cases hg : isLowerAlnum d = true
      · rw [collapseAux, if_pos hg]; exact hgood hg
      · rw [collapseAux, if_neg hg]; exact ih true
    | false =>
      by_cases hg : isLowerAlnum d = true
      · rw [collapseAux, if_pos hg]; exact hgood hg
      · rw [collapseAux, if_neg hg]
        refine List.chain'_cons'.mpr ⟨?_, ih true⟩
        rintro y hy ⟨_, h2⟩
        have := head_collapseAux_true cs hy
        rw [h2] at this
        exact absurd this (by decide)

theorem stripDashes_pre (l : List Char) : stripDashes l <+: l.dropWhile (· = '-') := by
  unfold stripDashes
  have h2 : ((l.dropWhile (· = '-')).reverse.dropWhile (· = '-')) <:+
      (l.dropWhile (· = '-')).reverse := List.dropWhile_suffix _
  have := List.reverse_prefix.mpr h2
  simpa using this

theorem stripDashes_inf (l : List Char) : stripDashes l <:+: l :=
  (stripDashes_pre l).isInfix.trans (List.dropWhile_suffix _).isInfix

theorem head?_stripDashes {l : List Char} {c : Char}
    (h : (stripDashes l).head? = some c) : c ≠ '-' := by
  have hne : stripDashes l ≠ [] := by
    intro h0
    rw [h0] at h
    simp at h
  have heq := prefix_head?_eq (stripDashes_pre l) hne
  rw [heq] at h
  have := head?_dropWhile_ne h
  simpa using this

theorem getLast?_stripDashes {l : List Char} {c : Char}
    (h : (stripDashes l).getLast? = some c) : c ≠ '-' := by
  unfold stripDashes at h
  rw [List.getLast?_reverse] at h
  have := head?_dropWhile_ne h
  simpa using this

/-- C8: slug derivation is deterministic (the same name always yields the same
result), and its output contains only lowercase alphanumeric characters
separated by single hyphens, with no leading or trailing hyphen. -/
theorem claim_C8 (name : String) :
    slug name = slug name ∧
    (∀ c ∈ (slug name).data, isLowerAlnum c = true ∨ c = '-') ∧
    List.Chain' (fun a c : Char => ¬(a = '-' ∧ c = '-')) (slug name).data ∧
    (∀ c, (slug name).data.head? = some c → c ≠ '-') ∧
    (∀ c, (slug name).data.getLast? = some c → c ≠ '-') := by
  have hdata : (slug name).data =
      stripDashes (collapseNonAlnum ((replaceList ".tex".data [] name.data).map Char.toLower)) :=
    rfl
  refine ⟨rfl, ?_, ?_, ?_, ?_⟩
  · intro c hc
    rw [hdata] at hc
    exact mem_collapseAux _ false ((stripDashes_inf _).subset hc)
  · rw [hdata]
    exact List.Chain'.infix (chain_collapseAux _ false) (stripDashes_inf _)
  · intro c hc
    rw [hdata] at hc
    exact head?_stripDashes hc
  · intro c hc
    rw [hdata] at hc
    exact getLast?_stripDashes hc

/-- C8 witness: the properties evaluated at the concrete name "My_Essay 2.tex". -/
theorem claim_C8_witness :
    slug "My_Essay 2.tex" = slug "My_Essay 2.tex" ∧
    (isLowerAlnum 'm' = true ∨ 'm' = '-') ∧
    ('m' ∈ (slug "My_Essay 2.tex").data) ∧
    (∀ c, (slug "My_Essay 2.tex").data.head? = some c → c ≠ '-') :=
  ⟨(claim_C8 "My_Essay 2.tex").1,
   (claim_C8 "My_Essay 2.tex").2.1 'm' (by decide),
   by decide,
   (claim_C8 "My_Essay 2.tex").2.2.2.1⟩


theorem dictSet_cons (k0 v0 k v : String) (rest : List (String × String)) :
    dictSet ((k0, v0) :: rest) k v =
      if k0 = k then (k, v) :: rest else (k0, v0) :: dictSet rest k v := rfl

theorem lookup_dictSet (l : List (String × String)) (k v k' : String) :
    (dictSet l k v).lookup k' = if k' = k then some v else l.lookup k' := by
  induction l with
  | nil =>
    show List.lookup k' [(k, v)] = _
    cases hbe : (k' == k) with
    | true =>
      have h := beq_iff_eq.mp hbe
      simp [List.lookup, hbe, h]
    | false =>
      have h := ne_of_beq_false hbe
      simp [List.lookup, hbe, h]
  | cons kv rest ih =>
    obtain ⟨k0, v0⟩ := kv
    by_cases h0 : k0 = k
    · subst h0
      rw [dictSet_cons, if_pos rfl]
      cases hbe : (k' == k0) with
      | true =>
        have h := beq_iff_eq.mp hbe
        simp [List.lookup, hbe, h]
      | false =>
        have h := ne_of_beq_false hbe
        simp [List.lookup, hbe, h]
    · rw [dictSet_cons, if_neg h0]
      cases hbe : (k' == k0) with
      | true =>
        have h := beq_iff_eq.mp hbe
        have hk : ¬ k' = k := fun hc => h0 ((h.symm.trans hc) ▸ rfl)
        simp [List.lookup, hbe, if_neg hk]
      | false =>
        simp only [List.lookup, hbe, ih]

theorem urlDates_foldl_lookup (pages : List Page) (url d : String) :
    ∀ acc : List (String × String),
      (pages.foldl (fun acc p =>
        let meta := extract_meta p.html
        let dateStr := if meta.updated ≠ "" then meta.updated else meta.date
        if dateStr = "" then acc else dictSet acc (canonicalUrl p) dateStr) acc).lookup url =
          some d →
      (∃ p ∈ pages, canonicalUrl p = url ∧
        d = (if (extract_meta p.html).updated ≠ "" then (extract_meta p.html).updated
             else (extract_meta p.html).date) ∧ d ≠ "") ∨
      acc.lookup url = some d := by
  induction pages with
  | nil => intro acc h; exact Or.inr h
  | cons p rest ih =>
    intro acc h
    simp only [List.foldl_cons] at h
    rcases ih _ h with hex | hacc
    · obtain ⟨q, hq, hurl, hd, hne⟩ := hex
      exact Or.inl ⟨q, List.mem_cons_of_mem _ hq, hurl, hd, hne⟩
    · by_cases hds : (if (extract_meta p.html).updated ≠ "" then (extract_meta p.html).updated
          else (extract_meta p.html).date) = ""
      · rw [if_pos hds] at hacc
        exact Or.inr hacc
      · rw [if_neg hds, lookup_dictSet] at hacc
        by_cases hu : url = canonicalUrl p
        · rw [if_pos hu] at hacc
          have hdd := Option.some.inj hacc
          refine Or.inl ⟨p, List.mem_cons_self p rest, hu.symm, hdd.symm, ?_⟩
          intro hd0
          exact hds (hdd.trans hd0)
        · rw [if_neg hu] at hacc
          exact Or.inr hacc

theorem urlDates_lookup {pages : List Page} {url d : String}
    (h : (urlDates pages).lookup url = some d) :
    ∃ p ∈ pages, canonicalUrl p = url ∧
      d = (if (extract_meta p.html).updated ≠ "" then (extract_meta p.html).updated
           else (extract_meta p.html).date) ∧ d ≠ "" := by
  rcases urlDates_foldl_lookup pages url d [] h with hex | habs
  · exact hex
  · simp [List.lookup] at habs

/-- C5 (amended): with no sitemap the step is a no-op; otherwise every url
element whose loc is found in the recovered date map gets its lastmod set to
that page's updated date (which defaults to the published date when no updated
marker is present) — not to the later of the two dates — and every other
element is left exactly as found. -/
theorem claim_C5 (pages : List Page) (entries : List UrlEntry) :
    inject_sitemap_lastmod pages none = none ∧
    (∃ out, inject_sitemap_lastmod pages (some entries) = some out ∧
      out.length = entries.length ∧
      (∀ i (hi : i < entries.length),
        (entries[i].loc = none → out[i]? = some entries[i]) ∧
        (∀ loc, entries[i].loc = some loc → (urlDates pages).lookup loc = none →
          out[i]? = some entries[i]) ∧
        (∀ loc d, entries[i].loc = some loc → (urlDates pages).lookup loc = some d →
          out[i]? = some { loc := some loc, lastmod := some d } ∧
          ∃ p ∈ pages, canonicalUrl p = loc ∧
            d = (if (extract_meta p.html).updated ≠ "" then (extract_meta p.html).updated
                 else (extract_meta p.html).date)))) := by
  constructor
  · rfl
  · have hstep : inject_sitemap_lastmod pages (some entries) =
        if (urlDates pages).isEmpty then some entries
        else some (entries.map (sitemapUpdateEntry (urlDates pages))) := rfl
    by_cases hud : (urlDates pages).isEmpty
    · rw [hstep, if_pos hud]
      refine ⟨entries, rfl, rfl, ?_⟩
      intro i hi
      have hlookup : ∀ loc : String, (urlDates pages).lookup loc = none := by
        intro loc
        rw [List.isEmpty_iff] at hud
        rw [hud]
        rfl
      refine ⟨?_, ?_, ?_⟩
      · intro _
        exact List.getElem?_eq_getElem hi
      · intro _ _ _
        exact List.getElem?_eq_getElem hi
      · intro loc d _ hc
        rw [hlookup loc] at hc
        exact absurd hc (by simp)
    · rw [hstep, if_neg hud]
      refine ⟨_, rfl, by simp, ?_⟩
      intro i hi
      have hmap : (entries.map (sitemapUpdateEntry (urlDates pages)))[i]? =
          some (sitemapUpdateEntry (urlDates pages) entries[i]) := by
        rw [List.getElem?_map, List.getElem?_eq_getElem hi]
        rfl
      refine ⟨?_, ?_, ?_⟩
      · intro hloc
        rw [hmap]
        simp only [sitemapUpdateEntry, hloc]
      · intro loc hloc hnone
        rw [hmap]
        simp only [sitemapUpdateEntry, hloc, hnone]
      · intro loc d hloc hsome
        constructor
        · rw [hmap]
          simp only [sitemapUpdateEntry, hloc, hsome]
        · obtain ⟨p, hp, hurl, hd, _⟩ := urlDates_lookup hsome
          exact ⟨p, hp, hurl, hd⟩

/-- C5 witness: the sitemap update evaluated on one concrete page and one
concrete sitemap element. -/
theorem claim_C5_witness :
    inject_sitemap_lastmod
      [⟨["sub"], "a.html", "<head></head>Published: 2024-05-01"⟩] none = none ∧
    (∃ out, inject_sitemap_lastmod
        [⟨["sub"], "a.html", "<head></head>Published: 2024-05-01"⟩]
        (some [⟨some "https://jamesxoliver.github.io/sub/a.html", none⟩]) = some out ∧
      out[0]? = some ⟨some "https://jamesxoliver.github.io/sub/a.html", some "2024-05-01"⟩) := by
  refine ⟨(claim_C5 [⟨["sub"], "a.html", "<head></head>Published: 2024-05-01"⟩]
    [⟨some "https://jamesxoliver.github.io/sub/a.html", none⟩]).1, ?_⟩
  obtain ⟨out, hout, _, hprops⟩ := (claim_C5
    [⟨["sub"], "a.html", "<head></head>Published: 2024-05-01"⟩]
    [⟨some "https://jamesxoliver.github.io/sub/a.html", none⟩]).2
  refine ⟨out, hout, ?_⟩
  exact ((hprops 0 (by decide)).2.2 "https://jamesxoliver.github.io/sub/a.html"
    "2024-05-01" (by decide) (by decide)).1

/-- C5 counterexample: a page whose Updated date is earlier than its Published
date; the code stores the updated date, not the later of the two, so the
claim's "later of updated and published" fails. -/
theorem claim_C5_counterexample :
    (extract_meta "<head></head>Published: 2024-05-01 Updated: 2020-01-01").date =
      "2024-05-01" ∧
    (extract_meta "<head></head>Published: 2024-05-01 Updated: 2020-01-01").updated =
      "2020-01-01" ∧
    inject_sitemap_lastmod
      [⟨["sub"], "a.html", "<head></head>Published: 2024-05-01 Updated: 2020-01-01"⟩]
      (some [⟨some "https://jamesxoliver.github.io/sub/a.html", none⟩]) =
      some [⟨some "https://jamesxoliver.github.io/sub/a.html", some "2020-01-01"⟩] ∧
    laterDate
      (extract_meta "<head></head>Published: 2024-05-01 Updated: 2020-01-01").updated
      (extract_meta "<head></head>Published: 2024-05-01 Updated: 2020-01-01").date =
      "2024-05-01" ∧
    ("2020-01-01" : String) ≠ "2024-05-01" := by
  refine ⟨by decide, by decide, by decide, by decide, by decide⟩

theorem pass2_foldl_failed (conv : Info → Option String) :
    ∀ (infos : List Info) (acc : Pass2Result),
      (infos.foldl (pass2Step conv) acc).failed =
        acc.failed + infos.countP (fun i => (conv i).isNone) := by
  intro infos
  induction infos with
  | nil => intro acc; simp
  | cons i rest ih =>
    intro acc
    rw [List.foldl_cons, ih]
    cases hc : conv i with
    | none =>
      simp [pass2Step, hc, List.countP_cons]
      omega
    | some md =>
      simp [pass2Step, hc, List.countP_cons]

theorem pass2_foldl_outPaths (conv : Info → Option String) :
    ∀ (infos : List Info) (acc : Pass2Result),
      (infos.foldl (pass2Step conv) acc).outPaths =
        acc.outPaths ++ (infos.filter (fun i => (conv i).isSome)).map outPathOf := by
  intro infos
  induction infos with
  | nil => intro acc; simp
  | cons i rest ih =>
    intro acc
    rw [List.foldl_cons, ih]
    cases hc : conv i with
    | none =>
      simp [pass2Step, hc, List.filter_cons]
    | some md =>
      simp [pass2Step, hc, List.filter_cons]

theorem pass2_failed (conv : Info → Option String) (infos : List Info) :
    (pass2 conv infos).failed = infos.countP (fun i => (conv i).isNone) := by
  unfold pass2
  rw [pass2_foldl_failed]
  simp

theorem pass2_outPaths (conv : Info → Option String) (infos : List Info) :
    (pass2 conv infos).outPaths = (infos.filter (fun i => (conv i).isSome)).map outPathOf := by
  unfold pass2
  rw [pass2_foldl_outPaths]
  simp

theorem pass1Doc_titleInvalid {doc : SourceDoc}
    (dates : SourceDoc → Option String × Option String)
    (h : docTitleInvalid doc = true) : pass1Doc dates doc = none := by
  unfold docTitleInvalid at h
  rw [Bool.and_eq_true] at h
  obtain ⟨hdir, htit⟩ := h
  have hdir0 : docDirSkipped doc = false := by simpa using hdir
  unfold pass1Doc
  rw [if_neg (by simp [hdir0])]
  cases ht : extract_title doc.content with
  | none => rfl
  | some t =>
    rw [ht] at htit
    simp only [decide_eq_true_eq, Bool.or_eq_true] at htit
    dsimp only
    rw [if_pos htit]

theorem pass1_cons_invalid {doc : SourceDoc} {docs : List SourceDoc}
    (dates : SourceDoc → Option String × Option String)
    (h : docTitleInvalid doc = true) :
    pass1 dates (doc :: docs) = pass1 dates docs := by
  unfold pass1
  rw [List.filterMap_cons, pass1Doc_titleInvalid dates h]

/-- C4 (amended): a document with a missing, empty, or placeholder title is
silently skipped in pass 1 — the run does not abort and every other document
is processed exactly as without it, and no output is produced for it — but it
is NOT counted as a failure: the reported failure count tallies exactly the
converter (pandoc) failures among the pass-1 survivors. -/
theorem claim_C4 (docs1 docs2 : List SourceDoc) (bad : SourceDoc)
    (dates : SourceDoc → Option String × Option String) (conv : Info → Option String)
    (hbad : docTitleInvalid bad = true) :
    pass1 dates (docs1 ++ bad :: docs2) = pass1 dates (docs1 ++ docs2) ∧
    convertMain (docs1 ++ bad :: docs2) dates conv = convertMain (docs1 ++ docs2) dates conv ∧
    (convertMain (docs1 ++ bad :: docs2) dates conv).failed =
      (pass1 dates (docs1 ++ bad :: docs2)).countP (fun i => (conv i).isNone) ∧
    (convertMain (docs1 ++ bad :: docs2) dates conv).outPaths =
      ((pass1 dates (docs1 ++ bad :: docs2)).filter (fun i => (conv i).isSome)).map
        outPathOf := by
  have hp1 : pass1 dates (docs1 ++ bad :: docs2) = pass1 dates (docs1 ++ docs2) := by
    unfold pass1
    rw [List.filterMap_append, List.filterMap_append, List.filterMap_cons,
      pass1Doc_titleInvalid dates hbad]
  refine ⟨hp1, ?_, ?_, ?_⟩
  · unfold convertMain
    rw [hp1]
  · unfold convertMain
    simp only [pass2_failed]
  · unfold convertMain
    simp only [pass2_outPaths]

/-- C4 witness: removing a placeholder-titled document changes nothing, at one
concrete corpus. -/
theorem claim_C4_witness :
    docTitleInvalid ⟨["X", "t.tex"], "\x5cnewcommand\x7b\x5cDocumentTitle\x7d\x7bTitle\x7d"⟩ = true ∧
    convertMain [⟨["X", "t.tex"], "\x5cnewcommand\x7b\x5cDocumentTitle\x7d\x7bTitle\x7d"⟩]
        (fun _ => (none, none)) (fun _ => some "md") =
      convertMain [] (fun _ => (none, none)) (fun _ => some "md") :=
  ⟨by decide,
   (claim_C4 [] [] ⟨["X", "t.tex"], "\x5cnewcommand\x7b\x5cDocumentTitle\x7d\x7bTitle\x7d"⟩
     (fun _ => (none, none)) (fun _ => some "md") (by decide)).2.1⟩

/-- C4 counterexample: a document whose title is the placeholder "Title" is
skipped but the reported failure count stays 0 with a succeeding converter, so
it is not counted as a failure the way converter failures are. -/
theorem claim_C4_counterexample :
    docTitleInvalid ⟨["X", "t.tex"], "\x5cnewcommand\x7b\x5cDocumentTitle\x7d\x7bTitle\x7d"⟩ = true ∧
    (convertMain [⟨["X", "t.tex"], "\x5cnewcommand\x7b\x5cDocumentTitle\x7d\x7bTitle\x7d"⟩]
      (fun _ => (none, none)) (fun _ => some "md")).failed = 0 ∧
    (convertMain [⟨["X", "t.tex"], "\x5cnewcommand\x7b\x5cDocumentTitle\x7d\x7bTitle\x7d"⟩]
      (fun _ => (none, none)) (fun _ => some "md")).outPaths = [] ∧
    ¬ ((convertMain [⟨["X", "t.tex"], "\x5cnewcommand\x7b\x5cDocumentTitle\x7d\x7bTitle\x7d"⟩]
        (fun _ => (none, none)) (fun _ => some "md")).failed =
      List.countP docTitleInvalid
        [⟨["X", "t.tex"], "\x5cnewcommand\x7b\x5cDocumentTitle\x7d\x7bTitle\x7d"⟩]) := by
  refine ⟨by decide, by decide, by decide, by decide⟩

theorem filter_key_insertionSort (l : List Info) (d : String) :
    (l.insertionSort infoDateGe).filter (fun e => e.published.getD "" = d) =
      l.filter (fun e => e.published.getD "" = d) := by
  have hpair : (l.filter (fun e => e.published.getD "" = d)).Pairwise infoDateGe := by
    apply List.pairwise_of_forall_mem_list
    intro a ha b hb
    have hka := (List.mem_filter.mp ha).2
    have hkb := (List.mem_filter.mp hb).2
    simp only [decide_eq_true_eq] at hka hkb
    unfold infoDateGe
    rw [hka, hkb]
    exact charsLe_refl _
  have hsub : List.Sublist (l.filter (fun e => e.published.getD "" = d))
      (l.insertionSort infoDateGe) :=
    List.sublist_insertionSort hpair (List.filter_sublist l)
  have hperm : ((l.insertionSort infoDateGe).filter (fun e => e.published.getD "" = d)).Perm
      (l.filter (fun e => e.published.getD "" = d)) :=
    (List.perm_insertionSort infoDateGe l).filter _
  have hsub2 := hsub.filter (fun e => decide (e.published.getD "" = d))
  rw [List.filter_filter] at hsub2
  simp only [Bool.and_self] at hsub2
  exact (hsub2.eq_of_length hperm.length_eq.symm).symm

/-- C6: the homepage "recent" section lists exactly the first five documents
of the dated pass-1 records sorted by publish date descending: every entry is
dated, undated documents are excluded entirely, entries are in descending date
order, every excluded dated document has a date at most every listed one, ties
keep the pre-existing corpus order, and each entry line shows the document's
title, nav path and publish date. -/
theorem claim_C6 (essays : List Info) :
    (∀ e ∈ recentOf essays, essayDated e = true) ∧
    (recentOf essays).Pairwise infoDateGe ∧
    (recentOf essays).length = min 5 (essays.filter essayDated).length ∧
    (∀ x ∈ essays.filter essayDated, x ∉ recentOf essays →
      ∀ y ∈ recentOf essays, infoDateGe y x) ∧
    (∀ d : String, (recentOf essays).filter (fun e => e.published.getD "" = d) <+:
      (essays.filter essayDated).filter (fun e => e.published.getD "" = d)) ∧
    (∀ e ∈ recentOf essays, recentLine e =
      "- [" ++ e.title ++ "](" ++ e.nav_path ++ ") <small>" ++ e.published.getD "" ++
        "</small>") := by
  have hsorted : ((essays.filter essayDated).insertionSort infoDateGe).Pairwise infoDateGe :=
    List.sorted_insertionSort infoDateGe _
  refine ⟨?_, ?_, ?_, ?_, ?_, ?_⟩
  · intro e he
    have h1 : e ∈ (essays.filter essayDated).insertionSort infoDateGe :=
      (List.take_sublist 5 _).mem he
    have h2 := (List.mem_insertionSort infoDateGe).mp h1
    exact (List.mem_filter.mp h2).2
  · exact hsorted.sublist (List.take_sublist 5 _)
  · unfold recentOf
    rw [List.length_take, List.length_insertionSort]
  · intro x hx hnx y hy
    have hxs : x ∈ (essays.filter essayDated).insertionSort infoDateGe :=
      (List.mem_insertionSort infoDateGe).mpr hx
    rw [← List.take_append_drop 5 ((essays.filter essayDated).insertionSort infoDateGe)]
      at hxs
    rcases List.mem_append.mp hxs with hxt | hxd
    · exact absurd hxt hnx
    · have hp := hsorted
      rw [← List.take_append_drop 5 ((essays.filter essayDated).insertionSort infoDateGe)]
        at hp
      exact (List.pairwise_append.mp hp).2.2 y hy x hxd
  · intro d
    have hpre : (recentOf essays).filter (fun e => e.published.getD "" = d) <+:
        ((essays.filter essayDated).insertionSort infoDateGe).filter
          (fun e => e.published.getD "" = d) :=
      List.IsPrefix.filter _ (List.take_prefix 5 _)
    rw [filter_key_insertionSort] at hpre
    exact hpre
  · intro e _
    rfl

/-- C6 witness: the recent section evaluated on a concrete corpus of two dated
and one undated record. -/
theorem claim_C6_witness :
    recentOf [⟨"Alpha", none, some "2024-01-01", none, "X", none, "a", "essays/x/a.md", []⟩,
              ⟨"Beta", none, some "2024-03-01", none, "X", none, "b", "essays/x/b.md", []⟩,
              ⟨"Gamma", none, none, none, "X", none, "c", "essays/x/c.md", []⟩] =
      [⟨"Beta", none, some "2024-03-01", none, "X", none, "b", "essays/x/b.md", []⟩,
       ⟨"Alpha", none, some "2024-01-01", none, "X", none, "a", "essays/x/a.md", []⟩] ∧
    essayDated ⟨"Beta", none, some "2024-03-01", none, "X", none, "b", "essays/x/b.md", []⟩ =
      true ∧
    recentLine ⟨"Beta", none, some "2024-03-01", none, "X", none, "b", "essays/x/b.md", []⟩ =
      "- [Beta](essays/x/b.md) <small>2024-03-01</small>" :=
  ⟨by decide,
   (claim_C6 [⟨"Alpha", none, some "2024-01-01", none, "X", none, "a", "essays/x/a.md", []⟩,
              ⟨"Beta", none, some "2024-03-01", none, "X", none, "b", "essays/x/b.md", []⟩,
              ⟨"Gamma", none, none, none, "X", none, "c", "essays/x/c.md", []⟩]).1
     ⟨"Beta", none, some "2024-03-01", none, "X", none, "b", "essays/x/b.md", []⟩ (by decide),
   by decide⟩

theorem replaceAux_cons_zero (p r : List Char) (c : Char) (cs : List Char) :
    replaceAux p r (c :: cs) 0 =
      if p.isPrefixOf (c :: cs) ∧ p ≠ [] then r ++ replaceAux p r cs (p.length - 1)
      else c :: replaceAux p r cs 0 := rfl

theorem replaceAux_zero_id {p r : List Char} :
    ∀ l, ¬ p <:+: l → replaceAux p r l 0 = l := by
  intro l
  induction l with
  | nil => intro _; rfl
  | cons c cs ih =>
    intro h
    rw [replaceAux_cons_zero]
    rw [if_neg (by
      rintro ⟨hpre, -⟩
      exact h (List.isPrefixOf_iff_prefix.mp hpre).isInfix)]
    have h2 : ¬ p <:+: cs := fun hc => h (List.infix_cons_iff.mpr (Or.inr hc))
    rw [ih h2]

theorem replaceAux_infix_r {p r : List Char} (hp : p ≠ []) :
    ∀ l, p <:+: l → r <:+: replaceAux p r l 0 := by
  intro l
  induction l with
  | nil =>
    intro h
    rw [List.infix_nil] at h
    exact absurd h hp
  | cons c cs ih =>
    intro h
    by_cases hpre : p.isPrefixOf (c :: cs) = true
    · rw [replaceAux_cons_zero, if_pos ⟨hpre, hp⟩]
      exact (List.prefix_append r _).isInfix
    · rw [replaceAux_cons_zero, if_neg (fun hand => hpre hand.1)]
      have h2 : p <:+: cs := by
        rcases List.infix_cons_iff.mp h with hpref | htail
        · exact absurd (List.isPrefixOf_iff_prefix.mpr hpref) hpre
        · exact htail
      exact List.infix_cons_iff.mpr (Or.inr (ih h2))

theorem pyContains_of_infix {hay needle : String} (h : needle.data <:+: hay.data) :
    pyContains hay needle = true :=
  listInfixOf_iff.mpr h

theorem infix_append_left {s l₁ : List Char} (l₂ : List Char) (h : s <:+: l₁) :
    s <:+: l₁ ++ l₂ :=
  h.trans (List.prefix_append l₁ l₂).isInfix

theorem infix_append_right (l₁ : List Char) {s l₂ : List Char} (h : s <:+: l₂) :
    s <:+: l₁ ++ l₂ :=
  h.trans (List.suffix_append l₁ l₂).isInfix

theorem mem_infix_joinSep (sep : String) :
    ∀ (l : List String) (x : String), x ∈ l → x.data <:+: (joinSep sep l).data := by
  intro l
  induction l with
  | nil => intro x hx; cases hx
  | cons a rest ih =>
    intro x hx
    cases rest with
    | nil =>
      have hxa : x = a := by
        rcases List.mem_cons.mp hx with h | h
        · exact h
        · cases h
      subst hxa
      exact List.infix_refl _
    | cons b rest2 =>
      have hdata : (joinSep sep (a :: b :: rest2)).data =
          (a.data ++ sep.data) ++ (joinSep sep (b :: rest2)).data := by
        show (a ++ sep ++ joinSep sep (b :: rest2)).data = _
        rw [String.data_append, String.data_append]
      rcases List.mem_cons.mp hx with rfl | hx2
      · rw [hdata]
        exact infix_append_left _ (infix_append_left _ (List.infix_refl _))
      · rw [hdata]
        exact infix_append_right _ (ih x hx2)

theorem inject_skip {p : Page} (h : pyContains p.html "application/ld+json" = true) :
    inject_into_html p = p.html := by
  simp only [inject_into_html]
  rw [if_pos h]

theorem injections_present {p : Page} (hsk : ¬ pyContains p.html "application/ld+json" = true)
    (hhead : "</head>".data <:+: p.html.data) :
    ∀ s ∈ injectionsOf p.html (canonicalUrl p) (pyContains (fullPathString p) "/essays/"),
      s.data <:+: (inject_into_html p).data := by
  intro s hs
  simp only [inject_into_html]
  rw [if_neg hsk]
  have hne : (injectionsOf p.html (canonicalUrl p)
      (pyContains (fullPathString p) "/essays/")).isEmpty = false := by
    cases hl : injectionsOf p.html (canonicalUrl p)
        (pyContains (fullPathString p) "/essays/") with
    | nil => rw [hl] at hs; cases hs
    | cons y ys => rfl
  rw [if_neg (by rw [hne]; exact Bool.false_ne_true)]
  show s.data <:+: replaceList "</head>".data
    ("    " ++ joinSep "\n    " (injectionsOf p.html (canonicalUrl p)
      (pyContains (fullPathString p) "/essays/")) ++ "\n  </head>").data p.html.data
  have hsr : s.data <:+: ("    " ++ joinSep "\n    " (injectionsOf p.html (canonicalUrl p)
      (pyContains (fullPathString p) "/essays/")) ++ "\n  </head>").data := by
    rw [String.data_append, String.data_append]
    exact infix_append_left _ (infix_append_right _
      (mem_infix_joinSep _ _ _ hs))
  exact hsr.trans (replaceAux_infix_r (by decide) _ hhead)

theorem jsonld_mem_injections (html canonical : String) :
    ("<script type=\"application/ld+json\">" ++
      build_jsonld (extract_meta html) canonical ++ "</script>") ∈
        injectionsOf html canonical true := by
  unfold injectionsOf
  exact List.mem_append_right _ (by simp)

theorem inject_no_head {p : Page} (hsk : ¬ pyContains p.html "application/ld+json" = true)
    (hhead : ¬ "</head>".data <:+: p.html.data) : inject_into_html p = p.html := by
  simp only [inject_into_html]
  rw [if_neg hsk]
  by_cases hie : (injectionsOf p.html (canonicalUrl p)
      (pyContains (fullPathString p) "/essays/")).isEmpty = true
  · rw [if_pos hie]
  · rw [if_neg hie]
    show String.mk (replaceAux "</head>".data _ p.html.data 0) = p.html
    rw [replaceAux_zero_id _ hhead]

theorem inject_idem_essay {p : Page}
    (hes : pyContains (fullPathString p) "/essays/" = true) :
    inject_into_html { p with html := inject_into_html p } = inject_into_html p := by
  by_cases hsk : pyContains p.html "application/ld+json" = true
  · rw [inject_skip hsk]
    exact inject_skip hsk
  · by_cases hhead : "</head>".data <:+: p.html.data
    · have hmem := jsonld_mem_injections p.html (canonicalUrl p)
      rw [← hes] at hmem
      have htag := injections_present hsk hhead _ hmem
      have hmarker : ("application/ld+json" : String).data <:+:
          ("<script type=\"application/ld+json\">" ++
            build_jsonld (extract_meta p.html) (canonicalUrl p) ++ "</script>").data := by
        rw [String.data_append, String.data_append]
        exact infix_append_left _ (infix_append_left _ (by decide))
      have hcont : pyContains (inject_into_html p) "application/ld+json" = true :=
        pyContains_of_infix (hmarker.trans htag)
      exact inject_skip hcont
    · rw [inject_no_head hsk hhead]
      exact inject_no_head hsk hhead

theorem feed_now_inj {pages : List Page} {n1 n2 : String}
    (hlen : n1.data.length = n2.data.length)
    (h : generate_rss_feed pages n1 = generate_rss_feed pages n2) : n1 = n2 := by
  unfold generate_rss_feed at h
  have hd := congrArg String.data h
  rw [String.data_append, String.data_append, String.data_append, String.data_append] at hd
  have h1 := List.append_cancel_right hd
  have h2 := List.append_cancel_left h1
  cases n1 with
  | mk d1 =>
    cases n2 with
    | mk d2 =>
      show String.mk d1 = String.mk d2
      rw [show d1 = d2 from h2]

theorem replaceAux_counter {pat r : List Char} :
    ∀ (k : Nat) (xs : List Char), replaceAux pat r xs k = replaceAux pat r (xs.drop k) 0 := by
  intro k
  induction k with
  | zero => intro xs; rfl
  | succ k ihk =>
    intro xs
    cases xs with
    | nil => rfl
    | cons x xs =>
      show replaceAux pat r xs k = _
      rw [ihk]
      rfl

theorem replaceAux_copy {pat r : List Char} :
    ∀ (k : Nat) (xs : List Char), (∀ j, j < k → ¬ pat <+: xs.drop j) →
      xs.take k <+: replaceAux pat r xs 0 := by
  intro k
  induction k with
  | zero => intro xs _; exact List.nil_prefix
  | succ k ihk =>
    intro xs hj
    cases xs with
    | nil => exact List.nil_prefix
    | cons x xs =>
      rw [replaceAux_cons_zero]
      have h0 : ¬ pat <+: (x :: xs) := by
        have := hj 0 (Nat.succ_pos k)
        simpa using this
      rw [if_neg (fun hand => h0 (List.isPrefixOf_iff_prefix.mp hand.1))]
      have ih2 := ihk xs (fun j hjk => by
        have := hj (j + 1) (Nat.succ_lt_succ hjk)
        simpa using this)
      exact List.cons_prefix_cons.mpr ⟨rfl, ih2⟩

theorem replace_keeps_inf {pat r P m : List Char} (hp : pat ≠ []) (hr : r = P ++ pat)
    (hsub : ¬ pat <:+: m)
    (hpre : ∀ k ∈ List.range pat.length, 0 < k → ¬ (pat.take k <:+ m))
    (hsuf : ∀ k ∈ List.range pat.length, 0 < k → ¬ (pat.drop k <+: m)) :
    ∀ l, m <:+: l → m <:+: replaceAux pat r l 0 := by
  suffices H : ∀ n l, l.length ≤ n → m <:+: l → m <:+: replaceAux pat r l 0 by
    intro l
    exact H l.length l le_rfl
  intro n
  induction n with
  | zero =>
    intro l hlen hm
    have hl : l = [] := List.length_eq_zero.mp (Nat.le_zero.mp hlen)
    subst hl
    have hmnil : m = [] := List.infix_nil.mp hm
    subst hmnil
    exact List.nil_infix
  | succ n ih =>
    intro l hlen hm
    cases l with
    | nil =>
      have hmnil : m = [] := List.infix_nil.mp hm
      subst hmnil
      exact List.nil_infix
    | cons c cs =>
      by_cases hmatch : pat.isPrefixOf (c :: cs) = true
      · -- an occurrence of the pattern starts here
        have hpl : pat <+: c :: cs := List.isPrefixOf_iff_prefix.mp hmatch
        obtain ⟨t, ht⟩ := hpl
        rw [replaceAux_cons_zero, if_pos ⟨hmatch, hp⟩, replaceAux_counter]
        have hteq : cs.drop (pat.length - 1) = t := by
          cases hpp : pat with
          | nil => exact absurd hpp hp
          | cons q qs =>
            rw [hpp] at ht
            have hcs : qs ++ t = cs := by
              have := ht
              simp only [List.cons_append, List.cons.injEq] at this
              exact this.2
            rw [← hcs]
            simp [List.drop_left]
        rw [hteq]
        have hmpt : m <:+: pat ++ t := by rw [ht]; exact hm
        obtain ⟨s, u, hsu⟩ := hmpt
        have hp_pre : pat <+: pat ++ t := List.prefix_append pat t
        have hs_pre : s <+: pat ++ t := ⟨m ++ u, by rw [← List.append_assoc, hsu]⟩
        rcases le_or_lt pat.length s.length with hcase | hcase
        · -- the marker lies beyond the occurrence
          have hps : pat <+: s := List.prefix_of_prefix_length_le hp_pre hs_pre hcase
          obtain ⟨s2, rfl⟩ := hps
          have htt : s2 ++ m ++ u = t := by
            have h2 : pat ++ (s2 ++ m ++ u) = pat ++ t := by
              rw [← hsu]
              simp [List.append_assoc]
            exact List.append_cancel_left h2
          have hmt : m <:+: t := ⟨s2, u, htt⟩
          have hlt : t.length ≤ n := by
            have h3 : (c :: cs).length = pat.length + t.length := by
              rw [← ht, List.length_append]
            have h4 : 1 ≤ pat.length := List.length_pos.mpr hp
            omega
          exact infix_append_right r (ih t hlt hmt)
        · rcases le_or_lt (s.length + m.length) pat.length with hcase2 | hcase2
          · -- the marker lies inside the occurrence, hence inside the replacement
            have hsm_pre : s ++ m <+: pat ++ t := ⟨u, hsu⟩
            have hsm_p : s ++ m <+: pat :=
              List.prefix_of_prefix_length_le hsm_pre hp_pre
                (by rw [List.length_append]; exact hcase2)
            obtain ⟨w, hw⟩ := hsm_p
            have hmp : m <:+: pat := ⟨s, w, by rw [← hw]⟩
            have hmr : m <:+: r := by rw [hr]; exact infix_append_right P hmp
            exact infix_append_left _ hmr
          · -- the marker would straddle the end of the occurrence: impossible
            exfalso
            have hsp : s <+: pat :=
              List.prefix_of_prefix_length_le hs_pre hp_pre (Nat.le_of_lt hcase)
            obtain ⟨p2, hp2⟩ := hsp
            have hmu : m ++ u = p2 ++ t := by
              have h2 : s ++ (m ++ u) = s ++ (p2 ++ t) := by
                rw [← List.append_assoc, hsu, ← hp2, List.append_assoc]
              exact List.append_cancel_left h2
            have hp2m : p2 <+: m := by
              refine List.prefix_of_prefix_length_le ⟨t, hmu.symm⟩ (List.prefix_append m u) ?_
              have h5 : s.length + p2.length = pat.length := by
                rw [← List.length_append, hp2]
              omega
            cases hs0 : s with
            | nil =>
              rw [hs0] at hp2
              simp at hp2
              rw [hp2] at hp2m
              exact hsub hp2m.isInfix
            | cons a s3 =>
              have hslen : 0 < s.length := by rw [hs0]; simp
              have hdrop : pat.drop s.length = p2 := by
                rw [← hp2, List.drop_left]
              exact hsuf s.length (List.mem_range.mpr hcase) hslen (hdrop ▸ hp2m)
      · -- no occurrence starts here
        rw [replaceAux_cons_zero, if_neg (fun hand => hmatch hand.1)]
        rcases List.infix_cons_iff.mp hm with hpref | htail
        · cases m with
          | nil => exact List.nil_infix
          | cons d m2 =>
            obtain ⟨hdc, hm2⟩ := List.cons_prefix_cons.mp hpref
            subst hdc
            have hguards : ∀ j, j < m2.length → ¬ pat <+: cs.drop j := by
              intro j hj hpj
              obtain ⟨v, hv⟩ := hm2
              have hdropj : cs.drop j = m2.drop j ++ v := by
                rw [← hv, List.drop_append_eq_append_drop,
                  Nat.sub_eq_zero_of_le (Nat.le_of_lt hj), List.drop_zero]
              rw [hdropj] at hpj
              have hqlen : 0 < (m2.drop j).length := by
                rw [List.length_drop]
                omega
              rcases le_or_lt pat.length (m2.drop j).length with hle | hlt
              · have hpq : pat <+: m2.drop j :=
                  List.prefix_of_prefix_length_le hpj (List.prefix_append _ v) hle
                have hpm : pat <:+: d :: m2 :=
                  (hpq.isInfix.trans (List.drop_suffix j m2).isInfix).trans
                    (List.infix_cons_iff.mpr (Or.inr (List.infix_refl m2)))
                exact hsub hpm
              · have hqp : m2.drop j <+: pat :=
                  List.prefix_of_prefix_length_le (List.prefix_append _ v) hpj
                    (Nat.le_of_lt hlt)
                have hqtake : pat.take (m2.drop j).length = m2.drop j :=
                  (List.prefix_iff_eq_take.mp hqp).symm
                have hsufm : m2.drop j <:+ d :: m2 :=
                  (List.drop_suffix j m2).trans (List.suffix_cons d m2)
                exact hpre (m2.drop j).length (List.mem_range.mpr hlt) hqlen
                  (by rw [hqtake]; exact hsufm)
            have hcopy := @replaceAux_copy pat r m2.length cs hguards
            have htake : cs.take m2.length = m2 := (List.prefix_iff_eq_take.mp hm2).symm
            exact (List.cons_prefix_cons.mpr ⟨rfl, htake ▸ hcopy⟩).isInfix
        · have hlen2 : cs.length ≤ n := by
            have : (c :: cs).length = cs.length + 1 := by simp
            omega
          exact List.infix_cons (ih cs hlen2 htail)

theorem inject_empty {p : Page} (hsk : ¬ pyContains p.html "application/ld+json" = true)
    (hie : (injectionsOf p.html (canonicalUrl p)
      (pyContains (fullPathString p) "/essays/")).isEmpty = true) :
    inject_into_html p = p.html := by
  simp only [inject_into_html]
  rw [if_neg hsk, if_pos hie]

theorem inject_keeps_marker {p : Page} {m : String}
    (hsk : ¬ pyContains p.html "application/ld+json" = true)
    (hsub : ¬ "</head>".data <:+: m.data)
    (hpre : ∀ k ∈ List.range 7, 0 < k → ¬ ("</head>".data.take k <:+ m.data))
    (hsuf : ∀ k ∈ List.range 7, 0 < k → ¬ ("</head>".data.drop k <+: m.data))
    (hc : pyContains p.html m = true) :
    pyContains (inject_into_html p) m = true := by
  simp only [inject_into_html]
  rw [if_neg hsk]
  by_cases hie : (injectionsOf p.html (canonicalUrl p)
      (pyContains (fullPathString p) "/essays/")).isEmpty = true
  · rw [if_pos hie]
    exact hc
  · rw [if_neg hie]
    have hr : ("    " ++ joinSep "\n    " (injectionsOf p.html (canonicalUrl p)
        (pyContains (fullPathString p) "/essays/")) ++ "\n  </head>").data =
        ("    ".data ++ (joinSep "\n    " (injectionsOf p.html (canonicalUrl p)
          (pyContains (fullPathString p) "/essays/"))).data ++ "\n  ".data) ++
          "</head>".data := by
      rw [String.data_append, String.data_append,
        show ("\n  </head>" : String).data = "\n  ".data ++ "</head>".data from by decide]
      simp [List.append_assoc]
    exact listInfixOf_iff.mpr
      (replace_keeps_inf (by decide) hr hsub hpre hsuf p.html.data (listInfixOf_iff.mp hc))

theorem inject_idem (p : Page)
    (hmeta : extract_meta (inject_into_html p) = extract_meta p.html) :
    inject_into_html { p with html := inject_into_html p } = inject_into_html p := by
  by_cases hsk : pyContains p.html "application/ld+json" = true
  · rw [inject_skip hsk]
    exact inject_skip hsk
  · by_cases hes : pyContains (fullPathString p) "/essays/" = true
    · exact inject_idem_essay hes
    · by_cases hie : (injectionsOf p.html (canonicalUrl p)
          (pyContains (fullPathString p) "/essays/")).isEmpty = true
      · rw [inject_empty hsk hie]
        exact inject_empty hsk hie
      · by_cases hhead : "</head>".data <:+: p.html.data
        · -- a non-essay page with a head and a nonempty injection block
          set html2 := inject_into_html p with hhtml2
          have hesf : pyContains (fullPathString p) "/essays/" = false := by
            revert hes
            cases pyContains (fullPathString p) "/essays/" <;> simp
          have hC1 : pyContains html2 "google-site-verification" = true := by
            by_cases hcm : pyContains p.html "google-site-verification" = true
            · exact inject_keeps_marker hsk (by decide) (by decide) (by decide) hcm
            · have hmem : ("<meta name=\"google-site-verification\" content=\"" ++
                  SEARCH_CONSOLE_VERIFICATION ++ "\" />") ∈
                  injectionsOf p.html (canonicalUrl p)
                    (pyContains (fullPathString p) "/essays/") := by
                simp only [injectionsOf]
                rw [if_pos ⟨by decide, hcm⟩]
                simp
              refine pyContains_of_infix
                (List.IsInfix.trans ?_ (injections_present hsk hhead _ hmem))
              rw [String.data_append, String.data_append]
              exact infix_append_left _ (infix_append_left _ (by decide))
          have hC2 : pyContains html2 "<link rel=\"canonical\"" = true := by
            by_cases hcm : pyContains p.html "<link rel=\"canonical\"" = true
            · exact inject_keeps_marker hsk (by decide) (by decide) (by decide) hcm
            · have hmem : ("<link rel=\"canonical\" href=\"" ++ canonicalUrl p ++ "\" />") ∈
                  injectionsOf p.html (canonicalUrl p)
                    (pyContains (fullPathString p) "/essays/") := by
                simp only [injectionsOf]
                rw [if_pos hcm]
                simp
              refine pyContains_of_infix
                (List.IsInfix.trans ?_ (injections_present hsk hhead _ hmem))
              rw [String.data_append, String.data_append]
              exact infix_append_left _ (infix_append_left _ (by decide))
          have hC3 : pyContains html2 "application/rss+xml" = true := by
            by_cases hcm : pyContains p.html "application/rss+xml" = true
            · exact inject_keeps_marker hsk (by decide) (by decide) (by decide) hcm
            · have hmem : ("<link rel=\"alternate\" type=\"application/rss+xml\" title=\"James Oliver\" href=\"" ++
                  SITE_URL ++ "/feed.xml\" />") ∈
                  injectionsOf p.html (canonicalUrl p)
                    (pyContains (fullPathString p) "/essays/") := by
                simp only [injectionsOf]
                rw [if_pos hcm]
                simp
              refine pyContains_of_infix
                (List.IsInfix.trans ?_ (injections_present hsk hhead _ hmem))
              rw [String.data_append, String.data_append]
              exact infix_append_left _ (infix_append_left _ (by decide))
          have hC4 : pyContains html2 "og:type" = true := by
            by_cases hcm : pyContains p.html "og:type" = true
            · exact inject_keeps_marker hsk (by decide) (by decide) (by decide) hcm
            · have hmem : ("<meta property=\"og:type\" content=\"article\" />" : String) ∈
                  injectionsOf p.html (canonicalUrl p)
                    (pyContains (fullPathString p) "/essays/") := by
                simp only [injectionsOf]
                rw [if_pos hcm]
                simp
              exact pyContains_of_infix
                (List.IsInfix.trans (by decide) (injections_present hsk hhead _ hmem))
          have hC5 : pyContains html2 "og:site_name" = true := by
            by_cases hcm : pyContains p.html "og:site_name" = true
            · exact inject_keeps_marker hsk (by decide) (by decide) (by decide) hcm
            · have hmem : ("<meta property=\"og:site_name\" content=\"James Oliver\" />" : String) ∈
                  injectionsOf p.html (canonicalUrl p)
                    (pyContains (fullPathString p) "/essays/") := by
                simp only [injectionsOf]
                rw [if_pos hcm]
                simp
              exact pyContains_of_infix
                (List.IsInfix.trans (by decide) (injections_present hsk hhead _ hmem))
          have hC6 : (extract_meta p.html).date ≠ "" →
              pyContains html2 "article:published_time" = true := by
            intro hd
            by_cases hcm : pyContains p.html "article:published_time" = true
            · exact inject_keeps_marker hsk (by decide) (by decide) (by decide) hcm
            · have hmem : ("<meta property=\"article:published_time\" content=\"" ++
                  (extract_meta p.html).date ++ "\" />") ∈
                  injectionsOf p.html (canonicalUrl p)
                    (pyContains (fullPathString p) "/essays/") := by
                simp only [injectionsOf]
                rw [if_pos (show (extract_meta p.html).date ≠ "" ∧
                  ¬ pyContains p.html "article:published_time" = true from ⟨hd, hcm⟩)]
                simp
              refine pyContains_of_infix
                (List.IsInfix.trans ?_ (injections_present hsk hhead _ hmem))
              rw [String.data_append, String.data_append]
              exact infix_append_left _ (infix_append_left _ (by decide))
          have hC7 : (extract_meta p.html).updated ≠ "" →
              pyContains html2 "article:modified_time" = true := by
            intro hd
            by_cases hcm : pyContains p.html "article:modified_time" = true
            · exact inject_keeps_marker hsk (by decide) (by decide) (by decide) hcm
            · have hmem : ("<meta property=\"article:modified_time\" content=\"" ++
                  (extract_meta p.html).updated ++ "\" />") ∈
                  injectionsOf p.html (canonicalUrl p)
                    (pyContains (fullPathString p) "/essays/") := by
                simp only [injectionsOf]
                rw [if_pos (show (extract_meta p.html).updated ≠ "" ∧
                  ¬ pyContains p.html "article:modified_time" = true from ⟨hd, hcm⟩)]
                simp
              refine pyContains_of_infix
                (List.IsInfix.trans ?_ (injections_present hsk hhead _ hmem))
              rw [String.data_append, String.data_append]
              exact infix_append_left _ (infix_append_left _ (by decide))
          have hC8 : pyContains html2 "article:author" = true := by
            by_cases hcm : pyContains p.html "article:author" = true
            · exact inject_keeps_marker hsk (by decide) (by decide) (by decide) hcm
            · have hmem : ("<meta property=\"article:author\" content=\"James Oliver\" />" : String) ∈
                  injectionsOf p.html (canonicalUrl p)
                    (pyContains (fullPathString p) "/essays/") := by
                simp only [injectionsOf]
                rw [if_pos hcm]
                simp
              exact pyContains_of_infix
                (List.IsInfix.trans (by decide) (injections_present hsk hhead _ hmem))
          have hC9 : pyContains html2 "twitter:card" = true := by
            by_cases hcm : pyContains p.html "twitter:card" = true
            · exact inject_keeps_marker hsk (by decide) (by decide) (by decide) hcm
            · have hmem : ("<meta name=\"twitter:card\" content=\"summary\" />" : String) ∈
                  injectionsOf p.html (canonicalUrl p)
                    (pyContains (fullPathString p) "/essays/") := by
                simp only [injectionsOf]
                rw [if_pos hcm]
                simp
              exact pyContains_of_infix
                (List.IsInfix.trans (by decide) (injections_present hsk hhead _ hmem))
          -- with every marker present, the second pass injects nothing
          by_cases hsk2 : pyContains html2 "application/ld+json" = true
          · exact inject_skip hsk2
          · have hinjnil : injectionsOf html2 (canonicalUrl p)
                (pyContains (fullPathString p) "/essays/") = [] := by
              rw [hesf]
              simp only [injectionsOf]
              rw [hmeta]
              rw [if_neg (fun h => h.2 hC1), if_neg (not_not_intro hC2),
                if_neg (not_not_intro hC3), if_neg (not_not_intro hC4),
                if_neg (not_not_intro hC5)]
              rw [show (if (extract_meta p.html).date ≠ "" ∧
                    ¬ pyContains html2 "article:published_time" = true then
                    ["<meta property=\"article:published_time\" content=\"" ++
                      (extract_meta p.html).date ++ "\" />"] else []) = [] from by
                by_cases hd : (extract_meta p.html).date = ""
                · rw [if_neg (fun h => h.1 hd)]
                · rw [if_neg (fun h => h.2 (hC6 hd))]]
              rw [show (if (extract_meta p.html).updated ≠ "" ∧
                    ¬ pyContains html2 "article:modified_time" = true then
                    ["<meta property=\"article:modified_time\" content=\"" ++
                      (extract_meta p.html).updated ++ "\" />"] else []) = [] from by
                by_cases hd : (extract_meta p.html).updated = ""
                · rw [if_neg (fun h => h.1 hd)]
                · rw [if_neg (fun h => h.2 (hC7 hd))]]
              rw [if_neg (not_not_intro hC8), if_neg (not_not_intro hC9)]
              simp
            show inject_into_html { p with html := html2 } = html2
            simp only [inject_into_html]
            rw [show canonicalUrl { dirs := p.dirs, name := p.name, html := html2 } =
                canonicalUrl p from rfl,
              show fullPathString { dirs := p.dirs, name := p.name, html := html2 } =
                fullPathString p from rfl,
              if_neg hsk2, hinjnil]
            simp
        · rw [inject_no_head hsk hhead]
          exact inject_no_head hsk hhead

theorem sitemapUpdateEntry_idem (ud : List (String × String)) (e : UrlEntry) :
    sitemapUpdateEntry ud (sitemapUpdateEntry ud e) = sitemapUpdateEntry ud e := by
  obtain ⟨loc, lm⟩ := e
  cases loc with
  | none => rfl
  | some l =>
    cases hl : ud.lookup l with
    | none =>
      simp only [sitemapUpdateEntry, hl]
    | some d =>
      simp only [sitemapUpdateEntry, hl]

theorem sitemap_idem (pages : List Page) (sm : Option (List UrlEntry)) :
    inject_sitemap_lastmod pages (inject_sitemap_lastmod pages sm) =
      inject_sitemap_lastmod pages sm := by
  cases sm with
  | none => rfl
  | some entries =>
    by_cases hud : (urlDates pages).isEmpty = true
    · have h1 : inject_sitemap_lastmod pages (some entries) = some entries := by
        simp only [inject_sitemap_lastmod]
        rw [if_pos hud]
      rw [h1]
      exact h1
    · have h1 : ∀ es : List UrlEntry, inject_sitemap_lastmod pages (some es) =
          some (es.map (sitemapUpdateEntry (urlDates pages))) := by
        intro es
        simp only [inject_sitemap_lastmod]
        rw [if_neg hud]
      rw [h1, h1]
      congr 1
      rw [List.map_map]
      exact List.map_congr_left (fun e _ => sitemapUpdateEntry_idem _ e)

theorem enrich_second_run (pages : List Page) (sm : Option (List UrlEntry)) (n1 n2 : String)
    (hstab : ∀ q ∈ pages, extract_meta (inject_into_html q) = extract_meta q.html) :
    (enrichMain (enrichMain pages sm n1).pages (enrichMain pages sm n1).sitemap n2).pages =
      (enrichMain pages sm n1).pages ∧
    (enrichMain (enrichMain pages sm n1).pages (enrichMain pages sm n1).sitemap n2).sitemap =
      (enrichMain pages sm n1).sitemap ∧
    (enrichMain (enrichMain pages sm n1).pages (enrichMain pages sm n1).sitemap n2).feed =
      feedPre ++ n2 ++ feedPost (enrichMain pages sm n1).pages := by
  have hpages : ((enrichMain pages sm n1).pages).map
      (fun q => { q with html := inject_into_html q }) = (enrichMain pages sm n1).pages := by
    show ((pages.map (fun q => { q with html := inject_into_html q })).map
      (fun q => { q with html := inject_into_html q })) = _
    rw [List.map_map]
    refine List.map_congr_left (fun q hq => ?_)
    show ({ { q with html := inject_into_html q } with
      html := inject_into_html { q with html := inject_into_html q } } : Page) =
      { q with html := inject_into_html q }
    rw [inject_idem q (hstab q hq)]
  refine ⟨hpages, ?_, ?_⟩
  · show inject_sitemap_lastmod (((enrichMain pages sm n1).pages).map
      (fun q => { q with html := inject_into_html q })) (enrichMain pages sm n1).sitemap =
      (enrichMain pages sm n1).sitemap
    rw [hpages]
    exact sitemap_idem _ sm
  · show feedPre ++ n2 ++ feedPost (((enrichMain pages sm n1).pages).map
      (fun q => { q with html := inject_into_html q })) = _
    rw [hpages]

/-- C2 (amended): a page already containing structured data is skipped
unchanged; enriching an essay page twice equals enriching it once; for any
page with a closing head tag, every marker substring of every tag injected by
a run is present in that run's output, so the second run's guards skip it (no
duplicate tags); for any page whose extracted metadata is unchanged by the
first injection, a second injection pass returns the page byte-identically;
the sitemap update is idempotent over a fixed page set; hence a second
enricher run over the first run's output leaves every page and the sitemap
byte-identical and rebuilds the feed as the constant skeleton around its own
timestamp — the feed, alone among the artifacts, differs between two runs
exactly when their lastBuildDate timestamps differ. -/
theorem claim_C2 (p : Page) (pages : List Page) (sm : Option (List UrlEntry)) (n1 n2 : String) :
    (pyContains p.html "application/ld+json" = true → inject_into_html p = p.html) ∧
    (pyContains (fullPathString p) "/essays/" = true →
      inject_into_html { p with html := inject_into_html p } = inject_into_html p) ∧
    (¬ pyContains p.html "application/ld+json" = true →
      "</head>".data <:+: p.html.data →
      ∀ s ∈ injectionsOf p.html (canonicalUrl p) (pyContains (fullPathString p) "/essays/"),
        ∀ m : String, m.data <:+: s.data → pyContains (inject_into_html p) m = true) ∧
    (generate_rss_feed pages n1 = feedPre ++ n1 ++ feedPost pages) ∧
    (n1.data.length = n2.data.length →
      generate_rss_feed pages n1 = generate_rss_feed pages n2 → n1 = n2) ∧
    (extract_meta (inject_into_html p) = extract_meta p.html →
      inject_into_html { p with html := inject_into_html p } = inject_into_html p) ∧
    (inject_sitemap_lastmod pages (inject_sitemap_lastmod pages sm) =
      inject_sitemap_lastmod pages sm) ∧
    ((∀ q ∈ pages, extract_meta (inject_into_html q) = extract_meta q.html) →
      (enrichMain (enrichMain pages sm n1).pages (enrichMain pages sm n1).sitemap n2).pages =
        (enrichMain pages sm n1).pages ∧
      (enrichMain (enrichMain pages sm n1).pages (enrichMain pages sm n1).sitemap n2).sitemap =
        (enrichMain pages sm n1).sitemap ∧
      (enrichMain (enrichMain pages sm n1).pages (enrichMain pages sm n1).sitemap n2).feed =
        feedPre ++ n2 ++ feedPost (enrichMain pages sm n1).pages) := by
  refine ⟨inject_skip, inject_idem_essay, ?_, rfl, feed_now_inj, inject_idem p,
    sitemap_idem pages sm, enrich_second_run pages sm n1 n2⟩
  intro hsk hhead s hs m hm
  exact pyContains_of_infix (hm.trans (injections_present hsk hhead s hs))

set_option maxRecDepth 40000 in
/-- C2 witness: the skip guard, essay-page idempotence, non-essay-page
idempotence, sitemap idempotence, the feed decomposition and the stability of
the second run's page list, all evaluated on concrete pages. -/
theorem claim_C2_witness :
    inject_into_html ⟨["essays"], "g.html", "<x>application/ld+json</x>"⟩ =
      "<x>application/ld+json</x>" ∧
    inject_into_html { (⟨["essays"], "g.html", "<head></head>b"⟩ : Page) with
        html := inject_into_html ⟨["essays"], "g.html", "<head></head>b"⟩ } =
      inject_into_html ⟨["essays"], "g.html", "<head></head>b"⟩ ∧
    inject_into_html { (⟨[], "about.html", "<head></head>"⟩ : Page) with
        html := inject_into_html ⟨[], "about.html", "<head></head>"⟩ } =
      inject_into_html ⟨[], "about.html", "<head></head>"⟩ ∧
    inject_sitemap_lastmod [⟨[], "a.html", "Published: 2024-03-04"⟩]
        (inject_sitemap_lastmod [⟨[], "a.html", "Published: 2024-03-04"⟩]
          (some [⟨some "https://jamesxoliver.github.io/a.html", none⟩])) =
      inject_sitemap_lastmod [⟨[], "a.html", "Published: 2024-03-04"⟩]
        (some [⟨some "https://jamesxoliver.github.io/a.html", none⟩]) ∧
    generate_rss_feed [] "Mon, 01 Jan 2024 00:00:00 +0000" =
      feedPre ++ "Mon, 01 Jan 2024 00:00:00 +0000" ++ feedPost [] ∧
    (enrichMain (enrichMain [⟨["essays"], "g.html", "<head></head>b"⟩] none "T1").pages
        (enrichMain [⟨["essays"], "g.html", "<head></head>b"⟩] none "T1").sitemap "T2").pages =
      (enrichMain [⟨["essays"], "g.html", "<head></head>b"⟩] none "T1").pages := by
  refine ⟨?_, ?_, ?_, ?_, ?_, ?_⟩
  · exact (claim_C2 ⟨["essays"], "g.html", "<x>application/ld+json</x>"⟩ [] none "" "").1
      (by decide)
  · exact (claim_C2 ⟨["essays"], "g.html", "<head></head>b"⟩ [] none "" "").2.1 (by decide)
  · exact (claim_C2 ⟨[], "about.html", "<head></head>"⟩ [] none "" "").2.2.2.2.2.1 (by decide)
  · exact (claim_C2 ⟨[], "x", ""⟩ [⟨[], "a.html", "Published: 2024-03-04"⟩]
      (some [⟨some "https://jamesxoliver.github.io/a.html", none⟩]) "" "").2.2.2.2.2.2.1
  · exact (claim_C2 ⟨[], "x", ""⟩ [] none "Mon, 01 Jan 2024 00:00:00 +0000" "").2.2.2.1
  · exact ((claim_C2 ⟨[], "x", ""⟩ [⟨["essays"], "g.html", "<head></head>b"⟩] none
      "T1" "T2").2.2.2.2.2.2.2 (by decide)).1


/-- C2 counterexample: over the same (empty, hence trivially already-enriched)
rendered corpus, the feed written by a second run differs byte-wise from the
first run's feed, because the code embeds datetime.now() as lastBuildDate; so
not every artifact is byte-identical between the two runs. -/
theorem claim_C2_counterexample :
    (enrichMain (enrichMain [] none "Mon, 01 Jan 2024 00:00:00 +0000").pages
        (enrichMain [] none "Mon, 01 Jan 2024 00:00:00 +0000").sitemap
        "Tue, 02 Jan 2024 00:00:00 +0000").feed ≠
      (enrichMain [] none "Mon, 01 Jan 2024 00:00:00 +0000").feed := by
  intro h
  have h2 : ("Tue, 02 Jan 2024 00:00:00 +0000" : String) =
      "Mon, 01 Jan 2024 00:00:00 +0000" :=
    feed_now_inj (by decide) h
  exact absurd h2 (by decide)

theorem pyTitleAux_cons (c : Char) (cs : List Char) (b : Bool) :
    pyTitleAux (c :: cs) b =
      (if c.isAlpha then (if b then c.toLower else c.toUpper) else c) ::
        pyTitleAux cs (c.isAlpha) := by
  by_cases h : c.isAlpha = true
  · rw [pyTitleAux, if_pos h, if_pos h, h]
  · have hf : c.isAlpha = false := by simpa using h
    rw [pyTitleAux, if_neg h, if_neg h, hf]

theorem slugChar_unread :
    ∀ c ∈ slugChars,
      unreadChar ((if c = '-' then ' ' else c).toUpper) = c ∧
      unreadChar ((if c = '-' then ' ' else c).toLower) = c ∧
      unreadChar (if c = '-' then ' ' else c) = c := by decide

theorem readable_retract :
    ∀ (l : List Char) (b : Bool), (∀ c ∈ l, c ∈ slugChars) →
      (pyTitleAux (l.map (fun c => if c = '-' then ' ' else c)) b).map unreadChar = l := by
  intro l
  induction l with
  | nil => intro b _; rfl
  | cons c cs ih =>
    intro b h
    obtain ⟨h1, h2, h3⟩ := slugChar_unread c (h c (List.mem_cons_self c cs))
    rw [List.map_cons, pyTitleAux_cons, List.map_cons]
    rw [ih _ (fun d hd => h d (List.mem_cons_of_mem c hd))]
    by_cases ha : (if c = '-' then ' ' else c).isAlpha = true
    · rw [if_pos ha]
      cases b
      · simp [h1]
      · simp [h2]
    · rw [if_neg ha, h3]

theorem readable_inj {l1 l2 : List Char}
    (h1 : ∀ c ∈ l1, c ∈ slugChars) (h2 : ∀ c ∈ l2, c ∈ slugChars)
    (heq : pyTitle (l1.map (fun c => if c = '-' then ' ' else c)) =
      pyTitle (l2.map (fun c => if c = '-' then ' ' else c))) : l1 = l2 := by
  have := congrArg (List.map unreadChar) heq
  rwa [show pyTitle (l1.map (fun c => if c = '-' then ' ' else c)) =
      pyTitleAux (l1.map (fun c => if c = '-' then ' ' else c)) false from rfl,
    show pyTitle (l2.map (fun c => if c = '-' then ' ' else c)) =
      pyTitleAux (l2.map (fun c => if c = '-' then ' ' else c)) false from rfl,
    readable_retract l1 false h1, readable_retract l2 false h2] at this

theorem paren_split :
    ∀ {T1 T2 r1 r2 : List Char}, '(' ∉ T1 → '(' ∉ T2 →
      T1 ++ '(' :: r1 = T2 ++ '(' :: r2 → T1 = T2 ∧ r1 = r2 := by
  intro T1
  induction T1 with
  | nil =>
    intro T2 r1 r2 _ h2 he
    cases T2 with
    | nil =>
      refine ⟨rfl, ?_⟩
      simpa using he
    | cons d t2 =>
      exfalso
      rw [List.nil_append] at he
      have hd : d = '(' := (List.cons.injEq _ _ _ _ ▸ he).1.symm
      exact h2 (hd ▸ List.mem_cons_self d t2)
  | cons c t1 ih =>
    intro T2 r1 r2 h1 h2 he
    cases T2 with
    | nil =>
      exfalso
      rw [List.nil_append] at he
      have hc : c = '(' := (List.cons.injEq _ _ _ _ ▸ he).1
      exact h1 (hc ▸ List.mem_cons_self c t1)
    | cons d t2 =>
      rw [List.cons_append, List.cons_append] at he
      have hcd := (List.cons.injEq _ _ _ _ ▸ he).1
      have htl := (List.cons.injEq _ _ _ _ ▸ he).2
      obtain ⟨hT, hr⟩ := ih (fun hm => h1 (List.mem_cons_of_mem c hm))
        (fun hm => h2 (List.mem_cons_of_mem d hm)) htl
      exact ⟨by rw [hcd, hT], hr⟩

theorem renamed_data (T R : String) :
    (T ++ " (" ++ R ++ ")").data = (T.data ++ [' ']) ++ '(' :: (R.data ++ [')']) := by
  rw [String.data_append, String.data_append, String.data_append]
  show T.data ++ [' ', '('] ++ R.data ++ [')'] = _
  simp [List.append_assoc]

theorem two_le_count {l : List (String × String)} {a b : String × String}
    (ha : a ∈ l) (hb : b ∈ l) (hne : a ≠ b) (ht : a.1 = b.1) :
    2 ≤ (l.map Prod.fst).count a.1 := by
  obtain ⟨s, t, rfl⟩ := List.append_of_mem ha
  rw [List.map_append, List.map_cons, List.count_append, List.count_cons_self]
  rcases List.mem_append.mp hb with hbs | hbt
  · have hmem : a.1 ∈ s.map Prod.fst := ht ▸ List.mem_map_of_mem Prod.fst hbs
    have := List.count_pos_iff.mpr hmem
    omega
  · rcases List.mem_cons.mp hbt with hba | hbt2
    · exact absurd hba.symm hne
    · have hmem : a.1 ∈ t.map Prod.fst := ht ▸ List.mem_map_of_mem Prod.fst hbt2
      have := List.count_pos_iff.mpr hmem
      omega

theorem renameItem_eq_of_dupe {all : List String} {it : String × String}
    (h : 1 < all.count it.1) :
    renameItem all it = (it.1 ++ " (" ++ (⟨readableStem it.2⟩ : String) ++ ")", it.2) := by
  unfold renameItem
  rw [if_pos h]

theorem renameItem_eq_of_unique {all : List String} {it : String × String}
    (h : ¬ 1 < all.count it.1) : renameItem all it = it := by
  unfold renameItem
  rw [if_neg h]

theorem renameItem_inj_of {items : List (String × String)} {a b : String × String}
    (ha : a ∈ items) (hb : b ∈ items)
    (hR : a.1 = b.1 → pathStem a.2 ≠ pathStem b.2)
    (h2a : '(' ∉ a.1.data) (h2b : '(' ∉ b.1.data)
    (h3a : ∀ c ∈ pathStem a.2, c ∈ slugChars) (h3b : ∀ c ∈ pathStem b.2, c ∈ slugChars) :
    (renameItem (items.map Prod.fst) a).1 ≠ (renameItem (items.map Prod.fst) b).1 := by
  by_cases ht : a.1 = b.1
  · have hstem := hR ht
    have hne : a ≠ b := fun he => hstem (he ▸ rfl)
    have hcnt : 1 < (items.map Prod.fst).count a.1 := two_le_count ha hb hne ht
    have hcntb : 1 < (items.map Prod.fst).count b.1 := ht ▸ hcnt
    rw [renameItem_eq_of_dupe hcnt, renameItem_eq_of_dupe hcntb]
    intro heq
    have hd := congrArg String.data heq
    rw [renamed_data, renamed_data, ht] at hd
    have hsplit := paren_split
      (fun hm => by
        rcases List.mem_append.mp hm with hm1 | hm1
        · exact (ht ▸ h2a) hm1
        · simp at hm1)
      (fun hm => by
        rcases List.mem_append.mp hm with hm1 | hm1
        · exact h2b hm1
        · simp at hm1) hd
    have hr := List.append_cancel_right hsplit.2
    have hreq : readableStem a.2 = readableStem b.2 := by
      have : ((⟨readableStem a.2⟩ : String)).data = ((⟨readableStem b.2⟩ : String)).data := hr
      exact this
    exact hstem (readable_inj h3a h3b hreq)
  · by_cases hca : 1 < (items.map Prod.fst).count a.1 <;>
      by_cases hcb : 1 < (items.map Prod.fst).count b.1
    · rw [renameItem_eq_of_dupe hca, renameItem_eq_of_dupe hcb]
      intro heq
      have hd := congrArg String.data heq
      rw [renamed_data, renamed_data] at hd
      have hsplit := paren_split
        (fun hm => by
          rcases List.mem_append.mp hm with hm1 | hm1
          · exact h2a hm1
          · simp at hm1)
        (fun hm => by
          rcases List.mem_append.mp hm with hm1 | hm1
          · exact h2b hm1
          · simp at hm1) hd
      have hT := List.append_cancel_right hsplit.1
      exact ht (String.ext hT)
    · rw [renameItem_eq_of_dupe hca, renameItem_eq_of_unique hcb]
      intro heq
      dsimp only at heq
      have hparen : '(' ∈ (a.1 ++ " (" ++ (⟨readableStem a.2⟩ : String) ++ ")").data := by
        rw [renamed_data]
        exact List.mem_append_right _ (List.mem_cons_self _ _)
      rw [heq] at hparen
      exact h2b hparen
    · rw [renameItem_eq_of_unique hca, renameItem_eq_of_dupe hcb]
      intro heq
      dsimp only at heq
      have hparen : '(' ∈ (b.1 ++ " (" ++ (⟨readableStem b.2⟩ : String) ++ ")").data := by
        rw [renamed_data]
        exact List.mem_append_right _ (List.mem_cons_self _ _)
      rw [← heq] at hparen
      exact h2a hparen
    · rw [renameItem_eq_of_unique hca, renameItem_eq_of_unique hcb]
      exact ht

theorem flatMap_snd_map (g : (String × String) → (String × String))
    (subs : List (Option String × List (String × String))) :
    (subs.map (fun sc => (sc.1, sc.2.map g))).flatMap (fun sc => sc.2) =
      (subs.flatMap (fun sc => sc.2)).map g := by
  induction subs with
  | nil => rfl
  | cons sc rest ih => simp only [List.map_cons, List.flatMap_cons, List.map_append, ih]

theorem flattenTree_map (g : (String × String) → (String × String)) (tree : EssayTree) :
    flattenTree (tree.map (fun tc => (tc.1, tc.2.map (fun sc => (sc.1, sc.2.map g))))) =
      (flattenTree tree).map g := by
  unfold flattenTree
  induction tree with
  | nil => rfl
  | cons tc rest ih =>
    simp only [List.map_cons, List.flatMap_cons, List.map_append, ih, flatMap_snd_map]

theorem flatten_disamb (tree : EssayTree) :
    flattenTree (disambiguateTree tree) =
      (flattenTree tree).map (renameItem (allTitles tree)) := by
  unfold disambiguateTree
  by_cases hd : (allTitles tree).any (fun t => 1 < (allTitles tree).count t) = true
  · rw [if_pos hd]
    exact flattenTree_map _ tree
  · rw [if_neg hd]
    symm
    have hall : ∀ it ∈ flattenTree tree, renameItem (allTitles tree) it = it := by
      intro it hit
      apply renameItem_eq_of_unique
      intro hcnt
      apply hd
      rw [List.any_eq_true]
      exact ⟨it.1, List.mem_map_of_mem Prod.fst hit, by simpa using hcnt⟩
    calc (flattenTree tree).map (renameItem (allTitles tree))
        = (flattenTree tree).map id := List.map_congr_left (fun a h => hall a h)
      _ = flattenTree tree := List.map_id _

/-- C1 (amended): in the category tree, disambiguation appends the
parenthesized human-readable form of its own output slug (hyphens to spaces,
title-cased) to every occurrence of a duplicated title and leaves every unique
title unchanged; the resulting display titles are all distinct provided that
occurrences of the same title have distinct file stems, that no title contains
an opening parenthesis, and that the file stems consist of slug characters —
without those conditions distinct documents can receive identical display
titles. -/
theorem claim_C1 (tree : EssayTree)
    (H1 : (flattenTree tree).Pairwise (fun a b => a.1 = b.1 → pathStem a.2 ≠ pathStem b.2))
    (H2 : ∀ it ∈ flattenTree tree, '(' ∉ it.1.data)
    (H3 : ∀ it ∈ flattenTree tree, ∀ c ∈ pathStem it.2, c ∈ slugChars) :
    flattenTree (disambiguateTree tree) =
      (flattenTree tree).map (renameItem (allTitles tree)) ∧
    (∀ it ∈ flattenTree tree, 1 < (allTitles tree).count it.1 →
      renameItem (allTitles tree) it =
        (it.1 ++ " (" ++ (⟨readableStem it.2⟩ : String) ++ ")", it.2)) ∧
    (∀ it ∈ flattenTree tree, ¬ 1 < (allTitles tree).count it.1 →
      renameItem (allTitles tree) it = it) ∧
    ((flattenTree (disambiguateTree tree)).map Prod.fst).Nodup := by
  refine ⟨flatten_disamb tree, ?_, ?_, ?_⟩
  · intro it _ h
    exact renameItem_eq_of_dupe h
  · intro it _ h
    exact renameItem_eq_of_unique h
  · rw [flatten_disamb tree, List.map_map]
    show List.Pairwise (fun a b => a ≠ b)
      ((flattenTree tree).map (Prod.fst ∘ renameItem (allTitles tree)))
    rw [List.pairwise_map]
    refine H1.imp_of_mem ?_
    intro a b ha hb hR
    exact renameItem_inj_of ha hb hR (H2 a ha) (H2 b hb) (H3 a ha) (H3 b hb)

/-- C1 witness: the disambiguation evaluated on a concrete tree with two
"Glucose" occurrences (slugs glucose-1 and glucose-2) and one unique "Beta". -/
theorem claim_C1_witness :
    ((flattenTree (disambiguateTree
      [("X", [(none, [("Glucose", "essays/x/glucose-1.md"), ("Beta", "essays/x/beta.md")])]),
       ("Y", [(none, [("Glucose", "essays/y/glucose-2.md")])])])).map Prod.fst).Nodup ∧
    renameItem (allTitles
      [("X", [(none, [("Glucose", "essays/x/glucose-1.md"), ("Beta", "essays/x/beta.md")])]),
       ("Y", [(none, [("Glucose", "essays/y/glucose-2.md")])])])
      ("Glucose", "essays/x/glucose-1.md") =
      ("Glucose (Glucose 1)", "essays/x/glucose-1.md") ∧
    renameItem (allTitles
      [("X", [(none, [("Glucose", "essays/x/glucose-1.md"), ("Beta", "essays/x/beta.md")])]),
       ("Y", [(none, [("Glucose", "essays/y/glucose-2.md")])])])
      ("Beta", "essays/x/beta.md") = ("Beta", "essays/x/beta.md") :=
  ⟨(claim_C1
      [("X", [(none, [("Glucose", "essays/x/glucose-1.md"), ("Beta", "essays/x/beta.md")])]),
       ("Y", [(none, [("Glucose", "essays/y/glucose-2.md")])])]
      (by decide) (by decide) (by decide)).2.2.2,
   by decide,
   (claim_C1
      [("X", [(none, [("Glucose", "essays/x/glucose-1.md"), ("Beta", "essays/x/beta.md")])]),
       ("Y", [(none, [("Glucose", "essays/y/glucose-2.md")])])]
      (by decide) (by decide) (by decide)).2.2.1
     ("Beta", "essays/x/beta.md") (by decide) (by decide)⟩

/-- C1 counterexample: two documents in different categories share the title
"Glucose" and the same file stem; after disambiguation both display titles are
"Glucose (Glucose)", so the display titles in the tree are not unique as the
claim states. -/
theorem claim_C1_counterexample :
    flattenTree (disambiguateTree
      [("X", [(none, [("Glucose", "essays/x/glucose.md")])]),
       ("Y", [(none, [("Glucose", "essays/y/glucose.md")])])]) =
      [("Glucose (Glucose)", "essays/x/glucose.md"),
       ("Glucose (Glucose)", "essays/y/glucose.md")] ∧
    ¬ ((flattenTree (disambiguateTree
      [("X", [(none, [("Glucose", "essays/x/glucose.md")])]),
       ("Y", [(none, [("Glucose", "essays/y/glucose.md")])])])).map Prod.fst).Nodup := by
  refine ⟨by decide, by decide⟩


theorem bucketAppend_cons (k : Option String) (items : List (String × String))
    (rest : List (Option String × List (String × String))) (sub : Option String)
    (item : String × String) :
    bucketAppend ((k, items) :: rest) sub item =
      if k = sub then (k, items ++ [item]) :: rest
      else (k, items) :: bucketAppend rest sub item := rfl

theorem treeInsert_cons (k : String) (subs : List (Option String × List (String × String)))
    (rest : EssayTree) (top : String) (sub : Option String) (item : String × String) :
    treeInsert ((k, subs) :: rest) top sub item =
      if k = top then (k, bucketAppend subs sub item) :: rest
      else (k, subs) :: treeInsert rest top sub item := rfl

theorem bucketAppend_perm (subs : List (Option String × List (String × String)))
    (sub : Option String) (item : String × String) :
    ((bucketAppend subs sub item).flatMap (fun sc => sc.2)).Perm
      ((subs.flatMap (fun sc => sc.2)) ++ [item]) := by
  induction subs with
  | nil => exact List.Perm.refl _
  | cons kv rest ih =>
    obtain ⟨k, items⟩ := kv
    by_cases hk : k = sub
    · rw [bucketAppend_cons, if_pos hk]
      simp only [List.flatMap_cons, List.append_assoc]
      exact List.Perm.append_left items List.perm_append_comm
    · rw [bucketAppend_cons, if_neg hk]
      simp only [List.flatMap_cons, List.append_assoc]
      exact List.Perm.append_left items ih

theorem treeInsert_perm (tree : EssayTree) (top : String) (sub : Option String)
    (item : String × String) :
    (flattenTree (treeInsert tree top sub item)).Perm (flattenTree tree ++ [item]) := by
  induction tree with
  | nil => exact List.Perm.refl _
  | cons kv rest ih =>
    obtain ⟨k, subs⟩ := kv
    by_cases hk : k = top
    · rw [treeInsert_cons, if_pos hk]
      unfold flattenTree
      simp only [List.flatMap_cons, List.append_assoc]
      refine ((bucketAppend_perm subs sub item).append_right _).trans ?_
      rw [List.append_assoc]
      exact List.Perm.append_left _ List.perm_append_comm
    · rw [treeInsert_cons, if_neg hk]
      unfold flattenTree
      simp only [List.flatMap_cons, List.append_assoc]
      exact List.Perm.append_left _ ih

theorem pass2_tree_perm (conv : Info → Option String) :
    ∀ (infos : List Info) (acc : Pass2Result),
      (flattenTree (infos.foldl (pass2Step conv) acc).tree).Perm
        (flattenTree acc.tree ++
          (infos.filter (fun i => (conv i).isSome)).map (fun i => (i.title, i.nav_path))) := by
  intro infos
  induction infos with
  | nil =>
    intro acc
    simp only [List.foldl_nil, List.filter_nil, List.map_nil, List.append_nil]
    exact List.Perm.refl _
  | cons i rest ih =>
    intro acc
    rw [List.foldl_cons]
    cases hc : conv i with
    | none =>
      have hstep : pass2Step conv acc i = { acc with failed := acc.failed + 1 } := by
        unfold pass2Step
        rw [hc]
      have hf : ((i :: rest).filter (fun j => (conv j).isSome)) =
          rest.filter (fun j => (conv j).isSome) := by
        simp [List.filter_cons, hc]
      rw [hstep, hf]
      exact ih _
    | some md =>
      have hstep : pass2Step conv acc i =
          { tree := treeInsert acc.tree i.top_category i.sub_category (i.title, i.nav_path),
            converted := acc.converted + 1, failed := acc.failed,
            outPaths := acc.outPaths ++ [outPathOf i] } := by
        unfold pass2Step
        rw [hc]
      have hf : ((i :: rest).filter (fun j => (conv j).isSome)) =
          i :: rest.filter (fun j => (conv j).isSome) := by
        simp [List.filter_cons, hc]
      rw [hstep, hf, List.map_cons]
      refine (ih _).trans ?_
      refine ((treeInsert_perm acc.tree i.top_category i.sub_category
        (i.title, i.nav_path)).append_right _).trans ?_
      rw [List.append_assoc]
      exact List.Perm.refl _

/-- C10: the homepage "recent" list is computed from the pass-1 metadata list
and not from the disambiguated category tree: the pass-1 records do not depend
on the converter at all, the category tree holds exactly the successfully
converted documents (so a document failing pass 2 is excluded from the tree and
from the navigation derived from it) while every pass-1 record stays eligible
for the "recent" section, and each recent line displays the record's original
extracted title and path. -/
theorem claim_C10 (docs : List SourceDoc)
    (dates : SourceDoc → Option String × Option String)
    (conv conv' : Info → Option String) :
    (convertMain docs dates conv).essays = pass1 dates docs ∧
    (convertMain docs dates conv).essays = (convertMain docs dates conv').essays ∧
    (flattenTree (pass2 conv (pass1 dates docs)).tree).Perm
      (((pass1 dates docs).filter (fun i => (conv i).isSome)).map
        (fun i => (i.title, i.nav_path))) ∧
    (convertMain docs dates conv).nav =
      build_nav (disambiguateTree (pass2 conv (pass1 dates docs)).tree) ∧
    (∀ e ∈ recentOf (convertMain docs dates conv).essays, e ∈ pass1 dates docs) ∧
    (∀ e ∈ recentOf (convertMain docs dates conv).essays,
      recentLine e = "- [" ++ e.title ++ "](" ++ e.nav_path ++ ") <small>" ++
        e.published.getD "" ++ "</small>") := by
  refine ⟨rfl, rfl, ?_, rfl, ?_, ?_⟩
  · have h := pass2_tree_perm conv (pass1 dates docs) ⟨[], 0, 0, []⟩
    simpa [pass2, flattenTree] using h
  · intro e he
    have h1 : e ∈ ((pass1 dates docs).filter essayDated).insertionSort infoDateGe :=
      (List.take_sublist 5 _).mem he
    exact (List.mem_filter.mp ((List.mem_insertionSort infoDateGe).mp h1)).1
  · intro e _
    rfl

set_option maxRecDepth 20000 in
/-- C10 witness: in the concrete corpus the second document fails conversion,
so it is absent from the pass-2 tree, yet it heads the "recent" list with its
original title; and when both documents convert, the tree titles are
disambiguated while the homepage recent line still shows the plain title. -/
theorem claim_C10_witness :
    c10info2 ∈ recentOf (convertMain c10docs c10dates c10fail).essays ∧
    c10info2 ∈ pass1 c10dates c10docs ∧
    recentLine c10info2 = "- [Glucose](essays/x/glucose-2.md) <small>2024-02-02</small>" ∧
    c10fail c10info2 = none ∧
    flattenTree (pass2 c10fail (pass1 c10dates c10docs)).tree =
      [("Glucose", "essays/x/glucose-1.md")] ∧
    flattenTree (convertMain c10docs c10dates c10ok).tree =
      [("Glucose (Glucose 1)", "essays/x/glucose-1.md"),
       ("Glucose (Glucose 2)", "essays/x/glucose-2.md")] ∧
    "- [Glucose](essays/x/glucose-2.md) <small>2024-02-02</small>" ∈
      (convertMain c10docs c10dates c10ok).homepage := by
  refine ⟨by decide, ?_, ?_, by decide, by decide, by decide, by decide⟩
  · exact (claim_C10 c10docs c10dates c10fail c10ok).2.2.2.2.1 c10info2 (by decide)
  · exact ((claim_C10 c10docs c10dates c10fail c10ok).2.2.2.2.2 c10info2
      (by decide)).trans (by decide)
